import Mathlib

/-!
Verification of the `flow-rs` binary decision diagram (BDD) engine.

This file gives a shallow embedding, in Lean 4, of the Rust sources under
`src/`: the data model (`src/bdd/mod.rs`), the parser (`src/bdd/parse.rs`),
the evaluator (`src/bdd/eval.rs`), the formatter (`src/bdd/display.rs`) and
the shared helpers of `src/lib.rs`.  The embedding choices are:

* `usize` / `isize` are modelled as `Nat` / `Int` together with the explicit
  bounds `usizeMax` / `isizeMax` / `isizeMin` of a 64-bit machine; the wrapping
  `as usize` cast is `intToUsize` (reduction modulo `2 ^ 64`).
* `HashMap` is modelled as an association list (`AssocMap`) whose `insert`
  replaces the value at the first matching key in place and otherwise appends;
  iteration order of the model is therefore the insertion order.  Rust leaves
  the iteration order of `HashMap` unspecified; the model fixes it.
* Rust panics (`expect`, `panic!`, arithmetic overflow checks) are modelled by
  the dedicated error value `FlowError.Panicked`, which is distinct from every
  error the Rust enum `FlowError` can represent.
* The possibly diverging evaluation loop of `eval` is modelled with explicit
  fuel (`evalFuel`); `EvalResult d r` states that the loop terminates with
  result `r` for some fuel, and is shown to be deterministic.
* Text is modelled as `List Char`; `str::lines`, `split_ascii_whitespace` and
  `parse::<usize>` / `parse::<isize>` are modelled character by character.
-/

/-- Number of bits of `usize` on the (64-bit) target: `usize::BITS`. -/
def usizeBits : Nat := 64

/-- `usize::MAX`. -/
def usizeMax : Nat := 2 ^ 64 - 1

/-- `isize::MAX`. -/
def isizeMax : Int := 2 ^ 63 - 1

/-- `isize::MIN`. -/
def isizeMin : Int := -(2 ^ 63)

/-- The `value as usize` cast on a signed value: wrap modulo `2 ^ 64`. -/
def intToUsize (i : Int) : Nat := (i % (2 ^ 64 : Int)).toNat

/-- Errors of `src/lib.rs` (`FlowError`), plus `Panicked`, which models a Rust
panic (it is not a value of the Rust enum; it marks aborts of the process such
as `expect` failures and debug overflow checks). -/
inductive FlowError where
  | EvaluationError (msg : String)
  | ParseError (msg : String)
  | VariableAssignmentError (msg : String)
  | Panicked (msg : String)
deriving DecidableEq, Repr

/-- `src/lib.rs`: `pub type Variable = Option<bool>;` (unassigned = `none`). -/
abbrev Variable := Option Bool

/-- `src/bdd/mod.rs` `DecisionNode`: `decision_map[0]` is the branch taken on
`false`, `decision_map[1]` the branch taken on `true`; modelled as a pair
(first component = index 0). -/
structure DecisionNode where
  variable_id : Nat
  decision_map : Nat × Nat
deriving DecidableEq, Repr

/-- `DecisionNode::new_node(node_if_false, node_if_true, variable_id)`. -/
def DecisionNode.new_node (node_if_false node_if_true variable_id : Nat) : DecisionNode :=
  { variable_id := variable_id, decision_map := (node_if_false, node_if_true) }

/-- `DecisionNode::evaluate`: `Some(false)` selects `decision_map[0]`,
`Some(true)` selects `decision_map[1]`, `None` is an evaluation error. -/
def DecisionNode.evaluate (n : DecisionNode) (var : Variable) : Except FlowError Nat :=
  match var with
  | some false => Except.ok n.decision_map.1
  | some true => Except.ok n.decision_map.2
  | none => Except.error (FlowError.EvaluationError ("Cannot evaluate node for an unassigned variable."))

/-- `src/bdd/mod.rs` `BinaryNode`. -/
inductive BinaryNode where
  | Decision (node : DecisionNode)
  | Terminal (value : Bool)
deriving DecidableEq, Repr

/-- `BinaryNode::is_decision_node`. -/
def BinaryNode.is_decision_node : BinaryNode → Bool
  | BinaryNode.Decision _ => true
  | BinaryNode.Terminal _ => false

/-- Model of `HashMap<usize, α>`: an association list; the key invariant
(`alKeys` has no duplicates) is stated separately as `WFAssocMap`. -/
abbrev AssocMap (α : Type) : Type := List (Nat × α)

/-- The keys, in the model's iteration order. -/
def alKeys {α : Type} (l : AssocMap α) : List Nat := l.map (fun p => p.1)

/-- `HashMap::get`: the value at the first matching key. -/
def alGet {α : Type} (k : Nat) : AssocMap α → Option α
  | [] => none
  | p :: rest => if p.1 = k then some p.2 else alGet k rest

/-- `HashMap::insert`: replace the value at the first matching key in place,
or append a fresh entry. -/
def alInsert {α : Type} (k : Nat) (v : α) : AssocMap α → AssocMap α
  | [] => [(k, v)]
  | p :: rest => if p.1 = k then (k, v) :: rest else p :: alInsert k v rest

/-- Key uniqueness, the invariant every Rust `HashMap` maintains. -/
def WFAssocMap {α : Type} (l : AssocMap α) : Prop := (alKeys l).Nodup

instance {α : Type} (l : AssocMap α) : Decidable (WFAssocMap l) := by
  unfold WFAssocMap; infer_instance

/-- `src/bdd/mod.rs` `BinaryDecisionDiagram`. -/
structure BinaryDecisionDiagram where
  «variables» : AssocMap Variable
  nodes : AssocMap BinaryNode
  entry_node : Nat
deriving DecidableEq, Repr

/-- The `HashMap` key invariant for both maps of a diagram. -/
def WFDiagram (d : BinaryDecisionDiagram) : Prop :=
  WFAssocMap d.variables ∧ WFAssocMap d.nodes

instance (d : BinaryDecisionDiagram) : Decidable (WFDiagram d) := by
  unfold WFDiagram; infer_instance

/-! ## Text utilities (`str::lines`, `split_ascii_whitespace`, integer parsing) -/

/-- `char::is_ascii_whitespace`: space, `\t`, `\n`, `\x0C`, `\r`. -/
def isWsChar (c : Char) : Bool :=
  c.toNat = 32 || c.toNat = 9 || c.toNat = 10 || c.toNat = 12 || c.toNat = 13

/-- Worker for `splitWs`; `acc` holds the current token reversed. -/
def splitWsAux : List Char → List Char → List (List Char)
  | [], acc => if acc = [] then [] else [acc.reverse]
  | c :: rest, acc =>
    if isWsChar c then
      if acc = [] then splitWsAux rest [] else acc.reverse :: splitWsAux rest []
    else splitWsAux rest (c :: acc)

/-- `str::split_ascii_whitespace`, as the list of all its tokens. -/
def splitWs (l : List Char) : List (List Char) := splitWsAux l []

/-- Split on `'\n'`, keeping empty pieces (`"ab".split('\n')` style). -/
def splitNl : List Char → List (List Char)
  | [] => [[]]
  | c :: rest =>
    if c = '\n' then [] :: splitNl rest
    else
      match splitNl rest with
      | [] => [[c]]
      | piece :: pieces => (c :: piece) :: pieces

/-- Drop one trailing `'\r'` (line endings `\r\n`). -/
def stripTrailCr (l : List Char) : List Char :=
  match l.getLast? with
  | some '\r' => l.dropLast
  | _ => l

/-- `str::lines`: split on `'\n'`, drop a final empty piece, and strip the
`'\r'` of `\r\n` endings from every `'\n'`-terminated piece. -/
def linesOf (s : List Char) : List (List Char) :=
  if s = [] then []
  else
    let ps := splitNl s
    let front := ps.dropLast.map stripTrailCr
    match ps.getLast? with
    | none => []
    | some last => if last = [] then front else front ++ [last]

/-- Is `c` one of `'0'`..`'9'`? -/
def isDigitChar (c : Char) : Bool := 48 ≤ c.toNat && c.toNat ≤ 57

/-- Numeric value of a digit string (most significant first). -/
def digitsVal (cs : List Char) : Nat :=
  cs.foldl (fun a c => a * 10 + (c.toNat - 48)) 0

/-- `str::parse::<usize>`: optional `'+'`, then at least one digit, nothing
else; errors (here `none`) on overflow past `usize::MAX`. -/
def parseUsize (cs : List Char) : Option Nat :=
  let ds := if cs.head? = some '+' then cs.tail else cs
  if ds = [] then none
  else if ds.all isDigitChar then
    let v := digitsVal ds
    if v ≤ usizeMax then some v else none
  else none

/-- `str::parse::<isize>`: optional sign, then at least one digit, nothing
else; errors on overflow outside `[isize::MIN, isize::MAX]`. -/
def parseIsize (cs : List Char) : Option Int :=
  if cs.head? = some '-' then
    let ds := cs.tail
    if ds = [] then none
    else if ds.all isDigitChar then
      let v := digitsVal ds
      if (v : Int) ≤ 2 ^ 63 then some (-(v : Int)) else none
    else none
  else
    let ds := if cs.head? = some '+' then cs.tail else cs
    if ds = [] then none
    else if ds.all isDigitChar then
      let v := digitsVal ds
      if (v : Int) ≤ isizeMax then some (v : Int) else none
    else none

/-- Decimal rendering of a `usize` (what `Display` prints for `{}`). -/
def natToChars (n : Nat) : List Char :=
  if n = 0 then ['0']
  else ((Nat.digits 10 n).reverse.map (fun d => Char.ofNat (48 + d)))

/-! ## Parser (`src/bdd/parse.rs`, `impl FromStr for BinaryDecisionDiagram`) -/

/-- The four integers of one node line, in source order:
`<node_id> <true_branch> <false_branch> <var_id_or_terminal_flag>`. -/
structure LineTuple where
  node_num : Nat
  node_if_true : Int
  node_if_false : Int
  var_id : Nat
deriving DecidableEq, Repr

/-- Is this a terminal line: `node_if_true < 0 && node_if_false < 0`. -/
def isTerminalTuple (t : LineTuple) : Prop :=
  t.node_if_true < 0 ∧ t.node_if_false < 0

instance (t : LineTuple) : Decidable (isTerminalTuple t) := by
  unfold isTerminalTuple; infer_instance

/-- Decode one node line: four `split_ascii_whitespace` tokens parsed as
`usize`, `isize`, `isize`, `usize` (extra tokens are ignored, matching the
four `.next()` calls of the source). -/
def decodeLine (l : List Char) : Except FlowError LineTuple :=
  let toks := splitWs l
  match toks[0]? with
  | none => Except.error (FlowError.ParseError ("Node num not present"))
  | some t0 =>
    match parseUsize t0 with
    | none => Except.error (FlowError.ParseError ("Could not parse int"))
    | some node_num =>
      match toks[1]? with
      | none => Except.error (FlowError.ParseError ("True Node number not present"))
      | some t1 =>
        match parseIsize t1 with
        | none => Except.error (FlowError.ParseError ("Could not parse int"))
        | some node_if_true =>
          match toks[2]? with
          | none => Except.error (FlowError.ParseError ("False Node number not present"))
          | some t2 =>
            match parseIsize t2 with
            | none => Except.error (FlowError.ParseError ("Could not parse int"))
            | some node_if_false =>
              match toks[3]? with
              | none => Except.error (FlowError.ParseError ("Var ID not present"))
              | some t3 =>
                match parseUsize t3 with
                | none => Except.error (FlowError.ParseError ("Could not parse int"))
                | some var_id =>
                  Except.ok ⟨node_num, node_if_true, node_if_false, var_id⟩

/-- The mutable state of the parsing loop. -/
structure ParseState where
  «variables» : AssocMap Variable
  nodes : AssocMap BinaryNode
  entry_node : Option Nat
deriving DecidableEq, Repr

/-- The body of the `for line in lines` loop, on an already decoded line:
both branches negative ⇒ insert a terminal and continue; otherwise set the
entry node if still unset, insert a fresh unassigned variable if the id is
new, and insert the decision node (signed branches cast with `as usize`). -/
def stepTuple (st : ParseState) (t : LineTuple) : ParseState :=
  if isTerminalTuple t then
    { st with nodes := alInsert t.node_num (BinaryNode.Terminal (t.var_id = 1)) st.nodes }
  else
    { «variables» :=
        if (alGet t.var_id st.variables).isSome then st.variables
        else alInsert t.var_id (none : Variable) st.variables
      nodes := alInsert t.node_num
        (BinaryNode.Decision (DecisionNode.new_node
          (intToUsize t.node_if_false) (intToUsize t.node_if_true) t.var_id)) st.nodes
      entry_node := match st.entry_node with
        | none => some t.node_num
        | some e => some e }

/-- The parsing loop: decode each line, fail on the first error. -/
def parseLines (st : ParseState) : List (List Char) → Except FlowError ParseState
  | [] => Except.ok st
  | l :: rest =>
    match decodeLine l with
    | Except.error e => Except.error e
    | Except.ok t => parseLines (stepTuple st t) rest

/-- Does the node map hold a terminal of value `b`? (the `has_true` /
`has_false` scan of the source). -/
def hasTerminal (b : Bool) (nodes : AssocMap BinaryNode) : Bool :=
  nodes.any (fun p => p.2 = BinaryNode.Terminal b)

/-- `BinaryDecisionDiagram::from_str` (`src/bdd/parse.rs`): two header lines
(of which only the second token is read), the node-line loop, then the
declared-count check, the two-terminal-polarities check, and the entry-node
check, in source order. -/
def fromStr (s : List Char) : Except FlowError BinaryDecisionDiagram :=
  match (linesOf s)[0]? with
  | none => Except.error (FlowError.ParseError ("Variable line not present"))
  | some var_line =>
    match (linesOf s)[1]? with
    | none => Except.error (FlowError.ParseError ("Node line not present"))
    | some node_line =>
      match (splitWs var_line)[1]? with
      | none => Except.error (FlowError.ParseError ("Var line does not specify number"))
      | some tv =>
        match parseUsize tv with
        | none => Except.error (FlowError.ParseError ("Could not parse int"))
        | some num_vars =>
          match (splitWs node_line)[1]? with
          | none => Except.error (FlowError.ParseError ("Node line does not specify number"))
          | some tn =>
            match parseUsize tn with
            | none => Except.error (FlowError.ParseError ("Could not parse int"))
            | some num_nodes =>
              match parseLines ⟨[], [], none⟩ ((linesOf s).drop 2) with
              | Except.error e => Except.error e
              | Except.ok st =>
                if num_vars ≠ st.variables.length ∨ num_nodes ≠ st.nodes.length then
                  Except.error (FlowError.ParseError ("Number of tokens does not match first lines"))
                else if ¬(hasTerminal true st.nodes ∧ hasTerminal false st.nodes) then
                  Except.error (FlowError.ParseError ("Not both types of terminal nodes."))
                else
                  match st.entry_node with
                  | none => Except.error (FlowError.ParseError ("No entry node was set"))
                  | some e => Except.ok ⟨st.variables, st.nodes, e⟩

/-! ### Observations on the raw input used to state claims -/

/-- The node lines of the input (everything after the two header lines). -/
def nodeLinesOf (s : List Char) : List (List Char) := (linesOf s).drop 2

/-- The declared `(N, M)` of the two header lines, when present. -/
def headerCounts (s : List Char) : Option (Nat × Nat) :=
  match (linesOf s)[0]? with
  | none => none
  | some var_line =>
    match (linesOf s)[1]? with
    | none => none
    | some node_line =>
      match (splitWs var_line)[1]? with
      | none => none
      | some tv =>
        match parseUsize tv with
        | none => none
        | some num_vars =>
          match (splitWs node_line)[1]? with
          | none => none
          | some tn =>
            match parseUsize tn with
            | none => none
            | some num_nodes => some (num_vars, num_nodes)

/-- The node id of every decodable node line, in order (duplicates kept). -/
def nodeLineIds (s : List Char) : List Nat :=
  (nodeLinesOf s).filterMap (fun l => (decodeLine l).toOption.map (fun t => t.node_num))

/-- The variable id of every decodable decision line, in order. -/
def decisionLineVarIds (s : List Char) : List Nat :=
  (nodeLinesOf s).filterMap (fun l => (decodeLine l).toOption.bind
    (fun t => if isTerminalTuple t then none else some t.var_id))

/-- The node id of every decodable terminal line (both branches negative). -/
def terminalLineIds (s : List Char) : List Nat :=
  (nodeLinesOf s).filterMap (fun l => (decodeLine l).toOption.bind
    (fun t => if isTerminalTuple t then some t.node_num else none))

/-- Does every decodable node line avoid the ambiguous mixed shape (exactly
one negative branch)?  True when each line has either both branches negative
(a terminal) or both nonnegative. -/
def noMixedBranchLines (s : List Char) : Bool :=
  (nodeLinesOf s).all (fun l =>
    match (decodeLine l).toOption with
    | none => true
    | some t => decide (isTerminalTuple t)
        || (0 ≤ t.node_if_true && 0 ≤ t.node_if_false))

/-! ## Formatter (`src/bdd/display.rs`) -/

/-- `Display for DecisionNode`: `"{decision_map[1]} {decision_map[0]} {variable_id}"`
(true branch first). -/
def renderDecisionNode (n : DecisionNode) : List Char :=
  natToChars n.decision_map.2 ++ ' ' :: (natToChars n.decision_map.1 ++ ' ' :: natToChars n.variable_id)

/-- `Display for BinaryNode`. -/
def renderNode : BinaryNode → List Char
  | BinaryNode.Decision n => renderDecisionNode n
  | BinaryNode.Terminal true => ("-1 -1 1").toList
  | BinaryNode.Terminal false => ("-1 -1 0").toList

/-- `Display for BinaryDecisionDiagram`: `vars N`, newline, `nodes M`, then
one `\n`-prefixed line `"{id} {node}"` per node map entry, in the map's
iteration order (the model's insertion order; Rust's `HashMap` order is
unspecified).  No trailing newline. -/
def renderBDD (d : BinaryDecisionDiagram) : List Char :=
  ("vars ").toList ++ natToChars d.variables.length
    ++ '\n' :: (("nodes ").toList ++ natToChars d.nodes.length)
    ++ (d.nodes.map (fun p => '\n' :: (natToChars p.1 ++ ' ' :: renderNode p.2))).flatten

/-! ## Evaluator (`src/bdd/eval.rs`, `impl Evaluate for BinaryDecisionDiagram`) -/

/-- Ascending sort of the variable ids (`keys.sort_unstable()`). -/
def sortedVarKeys (vars : AssocMap Variable) : List Nat :=
  List.insertionSort (· ≤ ·) (alKeys vars)

/-- The assignment loop of `assign_vars`: for each `(index, key)` (here `i`
counts the index), write `Some(bools[index])` through `get_mut(&key)`.
A missing key or an out-of-range index is a Rust panic; the state at the
abort is returned with the error. -/
def assignLoop (vars : AssocMap Variable) (bools : List Bool) :
    List Nat → Nat → Except (FlowError × AssocMap Variable) (AssocMap Variable)
  | [], _ => Except.ok vars
  | k :: rest, i =>
    match bools[i]? with
    | none => Except.error (FlowError.Panicked ("index out of bounds"), vars)
    | some b =>
      if (alGet k vars).isSome then
        assignLoop (alInsert k (some b) vars) bools rest (i + 1)
      else
        Except.error (FlowError.Panicked ("Malformed variables, unable to find in map"), vars)

/-- The final `self.variables.values().map(...).collect()` of `assign_vars`:
panics if any variable is still unassigned. -/
def collectVals : AssocMap Variable → Except FlowError (List Bool)
  | [] => Except.ok []
  | p :: rest =>
    match p.2 with
    | none => Except.error (FlowError.Panicked ("None in variable map after assignment."))
    | some b =>
      match collectVals rest with
      | Except.error e => Except.error e
      | Except.ok bs => Except.ok (b :: bs)

/-- `assign_vars` (`src/bdd/eval.rs`): error when fewer values than variables
are supplied; otherwise truncate the values to the variable count, sort the
variable ids ascending, and assign positionally.  The second component is the
diagram after the call (`&mut self`). -/
def assign_vars (d : BinaryDecisionDiagram) (values : List Bool) :
    Except FlowError (List Bool) × BinaryDecisionDiagram :=
  if values.length < d.variables.length then
    (Except.error (FlowError.VariableAssignmentError
      ("The length of values is less than the number of variables to assign.")), d)
  else
    let bools := values.take d.variables.length
    match assignLoop d.variables bools (sortedVarKeys d.variables) 0 with
    | Except.error (e, vars') => (Except.error e, { d with «variables» := vars' })
    | Except.ok vars' =>
      match collectVals vars' with
      | Except.error e => (Except.error e, { d with «variables» := vars' })
      | Except.ok out => (Except.ok out, { d with «variables» := vars' })

/-- The diagram state after `assign_vars` (ignoring the returned vector). -/
def assignedDiagram (d : BinaryDecisionDiagram) (values : List Bool) : BinaryDecisionDiagram :=
  (assign_vars d values).2

/-- The traversal loop of `eval`, with fuel bounding the number of decision
steps; `none` means the fuel ran out (the Rust loop just keeps running). -/
def evalGo (d : BinaryDecisionDiagram) : BinaryNode → Nat → Option (Except FlowError Bool)
  | BinaryNode.Terminal b, _ => some (Except.ok b)
  | BinaryNode.Decision _, 0 => none
  | BinaryNode.Decision dn, fuel + 1 =>
    match alGet dn.variable_id d.variables with
    | none => some (Except.error (FlowError.Panicked ("Decision variable not present in map.")))
    | some var =>
      match DecisionNode.evaluate dn var with
      | Except.error e => some (Except.error e)
      | Except.ok next =>
        match alGet next d.nodes with
        | none => some (Except.error (FlowError.EvaluationError ("Could not traverse to next node")))
        | some node => evalGo d node fuel

/-- `eval` (`src/bdd/eval.rs`) with explicit fuel: grab the entry node, then
walk decisions until a terminal. -/
def evalFuel (d : BinaryDecisionDiagram) (fuel : Nat) : Option (Except FlowError Bool) :=
  match alGet d.entry_node d.nodes with
  | none => some (Except.error (FlowError.EvaluationError ("Unable to grab entry node")))
  | some node => evalGo d node fuel

/-- `eval()` terminates with result `r` (for some fuel). -/
def EvalResult (d : BinaryDecisionDiagram) (r : Except FlowError Bool) : Prop :=
  ∃ fuel, evalFuel d fuel = some r

/-- `convert_bits_to_bools` (`src/lib.rs`): push `num_vars` booleans, least
significant bit of `bits` first (`& 1` and `>> 1` are `% 2` and `/ 2`). -/
def convert_bits_to_bools (bits : Nat) : Nat → List Bool
  | 0 => []
  | num_vars + 1 => decide (bits % 2 = 1) :: convert_bits_to_bools (bits / 2) num_vars

/-- `byte_to_bools` (`src/lib.rs`): the 8 bits of a byte, least significant
first. -/
def byte_to_bools (byte : Nat) : List Bool := convert_bits_to_bools (byte % 256) 8

/-- The `for var_set in 0..combinations` loop of `truth_table`: assign the
bit pattern, evaluate (propagating errors), and push the result. -/
def ttLoop (fuel : Nat) : BinaryDecisionDiagram → List Nat → List Bool →
    Option (Except FlowError (List Bool × BinaryDecisionDiagram))
  | d, [], acc => some (Except.ok (acc, d))
  | d, var_set :: rest, acc =>
    let vars := convert_bits_to_bools var_set d.variables.length
    match assign_vars d vars with
    | (Except.error e, _) => some (Except.error e)
    | (Except.ok _, d') =>
      match evalFuel d' fuel with
      | none => none
      | some (Except.error e) => some (Except.error e)
      | some (Except.ok b) => ttLoop fuel d' rest (acc ++ [b])

/-- `truth_table` (`src/bdd/eval.rs`) with explicit fuel for each `eval`
call: error when the variable count exceeds `usize::BITS`; at exactly
`usize::BITS` the shift `1usize << len` overflows, which is a panic under
Rust's debug overflow checks; otherwise enumerate `0..2^len`.  Returns the
results together with the mutated diagram. -/
def truthTableFuel (d : BinaryDecisionDiagram) (fuel : Nat) :
    Option (Except FlowError (List Bool × BinaryDecisionDiagram)) :=
  if d.variables.length > usizeBits then
    some (Except.error (FlowError.EvaluationError ("Too many variables")))
  else if d.variables.length = usizeBits then
    some (Except.error (FlowError.Panicked ("attempt to shift left with overflow")))
  else
    ttLoop fuel d (List.range (2 ^ d.variables.length)) []

/-- `truth_table()` terminates with result `r` (for some fuel). -/
def TruthTableResult (d : BinaryDecisionDiagram)
    (r : Except FlowError (List Bool × BinaryDecisionDiagram)) : Prop :=
  ∃ fuel, truthTableFuel d fuel = some r

/-! ## Lemmas about the association-map model -/

theorem alKeys_nil {α : Type} : alKeys ([] : AssocMap α) = [] := rfl

theorem alKeys_cons {α : Type} (p : Nat × α) (l : AssocMap α) :
    alKeys (p :: l) = p.1 :: alKeys l := rfl

theorem alGet_isSome_iff_mem {α : Type} (k : Nat) (l : AssocMap α) :
    (alGet k l).isSome ↔ k ∈ alKeys l := by
  induction l with
  | nil => simp [alGet, alKeys]
  | cons p rest ih =>
    by_cases h : p.1 = k
    · simp [alGet, alKeys, h]
    · simp [alGet, alKeys, h, ih, Ne.symm h]

theorem alGet_eq_none_iff {α : Type} (k : Nat) (l : AssocMap α) :
    alGet k l = none ↔ k ∉ alKeys l := by
  rw [← alGet_isSome_iff_mem]
  cases alGet k l <;> simp

theorem alGet_mem {α : Type} {k : Nat} {v : α} {l : AssocMap α}
    (h : alGet k l = some v) : (k, v) ∈ l := by
  induction l with
  | nil => simp [alGet] at h
  | cons p rest ih =>
    by_cases hp : p.1 = k
    · rw [alGet, if_pos hp] at h
      have hv : p.2 = v := Option.some.inj h
      have hpq : p = (k, v) := Prod.ext hp hv
      rw [← hpq]
      exact List.mem_cons_self _ _
    · rw [alGet, if_neg hp] at h
      exact List.mem_cons_of_mem _ (ih h)

theorem mem_alGet {α : Type} {k : Nat} {v : α} {l : AssocMap α}
    (hwf : WFAssocMap l) (h : (k, v) ∈ l) : alGet k l = some v := by
  induction l with
  | nil => simp at h
  | cons p rest ih =>
    unfold WFAssocMap at hwf
    rw [alKeys_cons] at hwf
    rcases List.mem_cons.mp h with h1 | h1
    · subst h1
      simp [alGet]
    · have hk : k ∈ alKeys rest := List.mem_map_of_mem (fun q => q.1) h1
      have hne : p.1 ≠ k := by
        intro he
        exact (List.nodup_cons.mp hwf).1 (he ▸ hk)
      simp [alGet, hne]
      exact ih (List.nodup_cons.mp hwf).2 h1

theorem alGet_alInsert_self {α : Type} (k : Nat) (v : α) (l : AssocMap α) :
    alGet k (alInsert k v l) = some v := by
  induction l with
  | nil => simp [alInsert, alGet]
  | cons p rest ih =>
    by_cases h : p.1 = k
    · simp [alInsert, h, alGet]
    · simp [alInsert, h, alGet, ih]

theorem alGet_alInsert_ne {α : Type} {k k' : Nat} (v : α) (l : AssocMap α)
    (h : k' ≠ k) : alGet k (alInsert k' v l) = alGet k l := by
  induction l with
  | nil => simp [alInsert, alGet, if_neg h]
  | cons p rest ih =>
    by_cases hp : p.1 = k'
    · have h1 : p.1 ≠ k := fun hh => h (hp ▸ hh)
      simp only [alInsert, if_pos hp, alGet, if_neg h, if_neg h1]
    · simp only [alInsert, if_neg hp, alGet, ih]

theorem alKeys_alInsert_mem {α : Type} {k : Nat} (v : α) {l : AssocMap α}
    (h : k ∈ alKeys l) : alKeys (alInsert k v l) = alKeys l := by
  induction l with
  | nil => simp [alKeys] at h
  | cons p rest ih =>
    by_cases hp : p.1 = k
    · simp [alInsert, hp, alKeys_cons]
    · rw [alKeys_cons] at h
      rcases List.mem_cons.mp h with h1 | h1
      · exact absurd h1.symm hp
      · simp [alInsert, hp, alKeys_cons, ih h1]

theorem alInsert_not_mem {α : Type} {k : Nat} (v : α) {l : AssocMap α}
    (h : k ∉ alKeys l) : alInsert k v l = l ++ [(k, v)] := by
  induction l with
  | nil => simp [alInsert]
  | cons p rest ih =>
    rw [alKeys_cons] at h
    have hp : p.1 ≠ k := fun he => h (by simp [he])
    simp only [alInsert]
    rw [if_neg hp]
    have : k ∉ alKeys rest := fun hm => h (List.mem_cons_of_mem _ hm)
    rw [ih this]
    simp

theorem alKeys_alInsert_not_mem {α : Type} {k : Nat} (v : α) {l : AssocMap α}
    (h : k ∉ alKeys l) : alKeys (alInsert k v l) = alKeys l ++ [k] := by
  rw [alInsert_not_mem v h]
  simp [alKeys]

theorem wf_alInsert {α : Type} (k : Nat) (v : α) {l : AssocMap α}
    (hwf : WFAssocMap l) : WFAssocMap (alInsert k v l) := by
  by_cases h : k ∈ alKeys l
  · unfold WFAssocMap
    rw [alKeys_alInsert_mem v h]
    exact hwf
  · unfold WFAssocMap
    rw [alKeys_alInsert_not_mem v h]
    unfold WFAssocMap at hwf
    simp [List.nodup_append, hwf, h]

theorem alInsert_forall {α : Type} {P : α → Prop} {k : Nat} {v : α} {l : AssocMap α}
    (hl : ∀ p ∈ l, P p.2) (hv : P v) : ∀ p ∈ alInsert k v l, P p.2 := by
  induction l with
  | nil => simp [alInsert]; exact hv
  | cons q rest ih =>
    intro p hp
    by_cases hq : q.1 = k
    · simp only [alInsert, if_pos hq] at hp
      rcases List.mem_cons.mp hp with h1 | h1
      · subst h1; exact hv
      · exact hl p (List.mem_cons_of_mem _ h1)
    · simp only [alInsert, if_neg hq] at hp
      rcases List.mem_cons.mp hp with h1 | h1
      · subst h1; exact hl p (List.mem_cons_self _ _)
      · exact ih (fun q' hq' => hl q' (List.mem_cons_of_mem _ hq')) p h1

theorem length_alInsert_mem {α : Type} {k : Nat} (v : α) {l : AssocMap α}
    (h : k ∈ alKeys l) : (alInsert k v l).length = l.length := by
  have := alKeys_alInsert_mem v h (α := α)
  have h1 : (alKeys (alInsert k v l)).length = (alKeys l).length := by rw [this]
  simpa [alKeys] using h1

theorem length_alInsert_not_mem {α : Type} {k : Nat} (v : α) {l : AssocMap α}
    (h : k ∉ alKeys l) : (alInsert k v l).length = l.length + 1 := by
  rw [alInsert_not_mem v h]
  simp

theorem alKeys_toFinset_alInsert {α : Type} (k : Nat) (v : α) (l : AssocMap α) :
    (alKeys (alInsert k v l)).toFinset = insert k (alKeys l).toFinset := by
  by_cases h : k ∈ alKeys l
  · rw [alKeys_alInsert_mem v h]
    have : k ∈ (alKeys l).toFinset := List.mem_toFinset.mpr h
    rw [Finset.insert_eq_self.mpr this]
  · rw [alKeys_alInsert_not_mem v h]
    ext x
    simp [or_comm]

theorem alExt {α : Type} {l₁ l₂ : AssocMap α} (hk : alKeys l₁ = alKeys l₂)
    (hwf : WFAssocMap l₁) (hg : ∀ k, alGet k l₁ = alGet k l₂) : l₁ = l₂ := by
  induction l₁ generalizing l₂ with
  | nil =>
    cases l₂ with
    | nil => rfl
    | cons q r => simp [alKeys] at hk
  | cons p r₁ ih =>
    cases l₂ with
    | nil => simp [alKeys] at hk
    | cons q r₂ =>
      rw [alKeys_cons, alKeys_cons] at hk
      injection hk with hk1 hkr
      have hv : p.2 = q.2 := by
        have h1 := hg p.1
        simp only [alGet] at h1
        rw [if_pos hk1.symm] at h1
        simpa using h1
      have hpq : p = q := Prod.ext hk1 hv
      unfold WFAssocMap at hwf
      rw [alKeys_cons] at hwf
      have hrest : r₁ = r₂ := by
        apply ih hkr (List.nodup_cons.mp hwf).2
        intro k
        by_cases hkp : k = p.1
        · have h1 : p.1 ∉ alKeys r₁ := (List.nodup_cons.mp hwf).1
          have h2 : p.1 ∉ alKeys r₂ := hkr ▸ h1
          rw [hkp, (alGet_eq_none_iff p.1 r₁).mpr h1, (alGet_eq_none_iff p.1 r₂).mpr h2]
        · have h1 := hg k
          simp only [alGet] at h1
          rw [if_neg (fun hh => hkp hh.symm),
            if_neg (fun hh : q.1 = k => hkp (hk1.trans hh).symm)] at h1
          exact h1
      rw [hpq, hrest]

/-! ## The parsing loop as a fold over decoded tuples -/

/-- Decode all node lines, stopping at the first error (the loop decodes each
line as it reaches it, so the first bad line aborts the parse). -/
def decodeAll : List (List Char) → Except FlowError (List LineTuple)
  | [] => Except.ok []
  | l :: rest =>
    match decodeLine l with
    | Except.error e => Except.error e
    | Except.ok t =>
      match decodeAll rest with
      | Except.error e => Except.error e
      | Except.ok ts => Except.ok (t :: ts)

theorem parseLines_eq_decodeAll (lines : List (List Char)) : ∀ st : ParseState,
    parseLines st lines = match decodeAll lines with
      | Except.error e => Except.error e
      | Except.ok ts => Except.ok (ts.foldl stepTuple st) := by
  induction lines with
  | nil => intro st; rfl
  | cons l rest ih =>
    intro st
    cases hdec : decodeLine l with
    | error e => simp [parseLines, decodeAll, hdec]
    | ok t =>
      simp only [parseLines, decodeAll, hdec]
      rw [ih (stepTuple st t)]
      cases decodeAll rest with
      | error e => rfl
      | ok ts => simp

/-- The node a line tuple constructs. -/
def nodeOf (t : LineTuple) : BinaryNode :=
  if isTerminalTuple t then BinaryNode.Terminal (t.var_id = 1)
  else BinaryNode.Decision (DecisionNode.new_node
    (intToUsize t.node_if_false) (intToUsize t.node_if_true) t.var_id)

/-- The node-map entry a line tuple inserts. -/
def entryOf (t : LineTuple) : Nat × BinaryNode := (t.node_num, nodeOf t)

/-- The effect of one loop iteration on the variable map alone. -/
def varsStep (vs : AssocMap Variable) (t : LineTuple) : AssocMap Variable :=
  if isTerminalTuple t then vs
  else if (alGet t.var_id vs).isSome then vs else alInsert t.var_id (none : Variable) vs

/-- The effect of one loop iteration on the entry-node register alone. -/
def entryStep (o : Option Nat) (t : LineTuple) : Option Nat :=
  if isTerminalTuple t then o
  else match o with
    | none => some t.node_num
    | some e => some e

theorem stepTuple_variables (st : ParseState) (t : LineTuple) :
    (stepTuple st t).variables = varsStep st.variables t := by
  unfold stepTuple varsStep
  by_cases h : isTerminalTuple t
  · rw [if_pos h, if_pos h]
  · rw [if_neg h, if_neg h]

theorem stepTuple_entry (st : ParseState) (t : LineTuple) :
    (stepTuple st t).entry_node = entryStep st.entry_node t := by
  unfold stepTuple entryStep
  by_cases h : isTerminalTuple t
  · rw [if_pos h, if_pos h]
  · rw [if_neg h, if_neg h]

theorem stepTuple_nodes (st : ParseState) (t : LineTuple) :
    (stepTuple st t).nodes = alInsert t.node_num (nodeOf t) st.nodes := by
  unfold stepTuple nodeOf
  by_cases h : isTerminalTuple t
  · rw [if_pos h, if_pos h]
  · rw [if_neg h, if_neg h]

theorem foldl_stepTuple_variables (ts : List LineTuple) : ∀ st : ParseState,
    (ts.foldl stepTuple st).variables = ts.foldl varsStep st.variables := by
  induction ts with
  | nil => intro st; rfl
  | cons t rest ih =>
    intro st
    rw [List.foldl_cons, List.foldl_cons, ih, stepTuple_variables]

theorem foldl_stepTuple_entry (ts : List LineTuple) : ∀ st : ParseState,
    (ts.foldl stepTuple st).entry_node = ts.foldl entryStep st.entry_node := by
  induction ts with
  | nil => intro st; rfl
  | cons t rest ih =>
    intro st
    rw [List.foldl_cons, List.foldl_cons, ih, stepTuple_entry]

/-- The node maps a fold builds: successive inserts. -/
def nodesFold (ns : AssocMap BinaryNode) (ts : List LineTuple) : AssocMap BinaryNode :=
  ts.foldl (fun m t => alInsert t.node_num (nodeOf t) m) ns

theorem foldl_stepTuple_nodes (ts : List LineTuple) : ∀ st : ParseState,
    (ts.foldl stepTuple st).nodes = nodesFold st.nodes ts := by
  induction ts with
  | nil => intro st; rfl
  | cons t rest ih =>
    intro st
    rw [List.foldl_cons, ih, stepTuple_nodes]
    rfl

/-! ## Parse-loop invariants -/

theorem mem_alInsert {α : Type} {p : Nat × α} {k : Nat} {v : α} {l : AssocMap α}
    (h : p ∈ alInsert k v l) : p = (k, v) ∨ p ∈ l := by
  induction l with
  | nil => simp [alInsert] at h; simp [h]
  | cons q rest ih =>
    by_cases hq : q.1 = k
    · rw [alInsert, if_pos hq] at h
      rcases List.mem_cons.mp h with h1 | h1
      · exact Or.inl h1
      · exact Or.inr (List.mem_cons_of_mem _ h1)
    · rw [alInsert, if_neg hq] at h
      rcases List.mem_cons.mp h with h1 | h1
      · exact Or.inr (h1 ▸ List.mem_cons_self _ _)
      · rcases ih h1 with h2 | h2
        · exact Or.inl h2
        · exact Or.inr (List.mem_cons_of_mem _ h2)

theorem alKeys_subset_alInsert {α : Type} {k' k : Nat} (v : α) (l : AssocMap α)
    (h : k' ∈ alKeys l) : k' ∈ alKeys (alInsert k v l) := by
  by_cases hm : k ∈ alKeys l
  · rw [alKeys_alInsert_mem v hm]; exact h
  · rw [alKeys_alInsert_not_mem v hm]; exact List.mem_append_left _ h

theorem self_mem_alKeys_alInsert {α : Type} (k : Nat) (v : α) (l : AssocMap α) :
    k ∈ alKeys (alInsert k v l) := by
  rw [← alGet_isSome_iff_mem, alGet_alInsert_self]
  rfl

/-- The node ids of terminal lines among the tuples. -/
def termIdsOfTuples (ts : List LineTuple) : List Nat :=
  ts.filterMap (fun t => if isTerminalTuple t then some t.node_num else none)

/-- The node ids of the tuples, in order, duplicates kept. -/
def idsOfTuples (ts : List LineTuple) : List Nat :=
  ts.map (fun t => t.node_num)

theorem foldl_entryStep_some (ts : List LineTuple) (e : Nat) :
    ts.foldl entryStep (some e) = some e := by
  induction ts with
  | nil => rfl
  | cons t rest ih =>
    rw [List.foldl_cons]
    have h : entryStep (some e) t = some e := by
      unfold entryStep
      by_cases hT : isTerminalTuple t
      · rw [if_pos hT]
      · rw [if_neg hT]
    rw [h, ih]

/-- All parse-time variables are unassigned. -/
theorem varsFold_none (ts : List LineTuple) : ∀ vs : AssocMap Variable,
    (∀ p ∈ vs, p.2 = none) → ∀ p ∈ ts.foldl varsStep vs, p.2 = none := by
  induction ts with
  | nil => intro vs h; exact h
  | cons t rest ih =>
    intro vs h
    rw [List.foldl_cons]
    apply ih
    unfold varsStep
    by_cases hT : isTerminalTuple t
    · rw [if_pos hT]; exact h
    · rw [if_neg hT]
      by_cases hg : (alGet t.var_id vs).isSome
      · rw [if_pos hg]; exact h
      · rw [if_neg hg]
        exact alInsert_forall (P := fun v => v = none) h rfl

/-- Every decision node's variable id is a key of the variable map. -/
def DecVarsPresent (st : ParseState) : Prop :=
  ∀ p ∈ st.nodes, ∀ dn, p.2 = BinaryNode.Decision dn → dn.variable_id ∈ alKeys st.variables

theorem alKeys_varsStep_subset {k : Nat} (vs : AssocMap Variable) (t : LineTuple)
    (h : k ∈ alKeys vs) : k ∈ alKeys (varsStep vs t) := by
  unfold varsStep
  by_cases hT : isTerminalTuple t
  · rw [if_pos hT]; exact h
  · rw [if_neg hT]
    by_cases hg : (alGet t.var_id vs).isSome
    · rw [if_pos hg]; exact h
    · rw [if_neg hg]; exact alKeys_subset_alInsert _ _ h

theorem varId_mem_varsStep (vs : AssocMap Variable) (t : LineTuple)
    (hT : ¬isTerminalTuple t) : t.var_id ∈ alKeys (varsStep vs t) := by
  unfold varsStep
  rw [if_neg hT]
  by_cases hg : (alGet t.var_id vs).isSome
  · rw [if_pos hg]
    exact (alGet_isSome_iff_mem _ _).mp hg
  · rw [if_neg hg]
    exact self_mem_alKeys_alInsert _ _ _

theorem stepTuple_decVarsPresent {st : ParseState} (t : LineTuple)
    (h : DecVarsPresent st) : DecVarsPresent (stepTuple st t) := by
  unfold DecVarsPresent
  rw [stepTuple_nodes, stepTuple_variables]
  intro p hp dn hdn
  rcases mem_alInsert hp with h1 | h1
  · by_cases hT : isTerminalTuple t
    · rw [h1] at hdn
      simp [nodeOf, if_pos hT] at hdn
    · have : dn.variable_id = t.var_id := by
        rw [h1] at hdn
        simp [nodeOf, if_neg hT, DecisionNode.new_node] at hdn
        rw [← hdn]
      rw [this]
      exact varId_mem_varsStep st.variables t hT
  · exact alKeys_varsStep_subset st.variables t (h p h1 dn hdn)

theorem foldl_decVarsPresent (ts : List LineTuple) : ∀ st : ParseState,
    DecVarsPresent st → DecVarsPresent (ts.foldl stepTuple st) := by
  induction ts with
  | nil => intro st h; exact h
  | cons t rest ih =>
    intro st h
    rw [List.foldl_cons]
    exact ih _ (stepTuple_decVarsPresent t h)

/-- The entry node, once set, is a key of the node map. -/
def EntryPresent (st : ParseState) : Prop :=
  ∀ e, st.entry_node = some e → e ∈ alKeys st.nodes

theorem stepTuple_entryPresent {st : ParseState} (t : LineTuple)
    (h : EntryPresent st) : EntryPresent (stepTuple st t) := by
  unfold EntryPresent
  rw [stepTuple_nodes, stepTuple_entry]
  intro e he
  unfold entryStep at he
  by_cases hT : isTerminalTuple t
  · rw [if_pos hT] at he
    exact alKeys_subset_alInsert _ _ (h e he)
  · rw [if_neg hT] at he
    cases hst : st.entry_node with
    | none =>
      rw [hst] at he
      have : t.node_num = e := by injection he with hh
      rw [← this]
      exact self_mem_alKeys_alInsert _ _ _
    | some e' =>
      rw [hst] at he
      have : e' = e := by injection he with hh
      exact alKeys_subset_alInsert _ _ (h e (this ▸ hst))

theorem foldl_entryPresent (ts : List LineTuple) : ∀ st : ParseState,
    EntryPresent st → EntryPresent (ts.foldl stepTuple st) := by
  induction ts with
  | nil => intro st h; exact h
  | cons t rest ih =>
    intro st h
    rw [List.foldl_cons]
    exact ih _ (stepTuple_entryPresent t h)

/-- Both maps keep distinct keys. -/
theorem stepTuple_wf {st : ParseState} (t : LineTuple)
    (hv : WFAssocMap st.variables) (hn : WFAssocMap st.nodes) :
    WFAssocMap (stepTuple st t).variables ∧ WFAssocMap (stepTuple st t).nodes := by
  rw [stepTuple_variables, stepTuple_nodes]
  constructor
  · unfold varsStep
    by_cases hT : isTerminalTuple t
    · rw [if_pos hT]; exact hv
    · rw [if_neg hT]
      by_cases hg : (alGet t.var_id st.variables).isSome
      · rw [if_pos hg]; exact hv
      · rw [if_neg hg]; exact wf_alInsert _ _ hv
  · exact wf_alInsert _ _ hn

theorem foldl_wf (ts : List LineTuple) : ∀ st : ParseState,
    WFAssocMap st.variables → WFAssocMap st.nodes →
    WFAssocMap (ts.foldl stepTuple st).variables ∧ WFAssocMap (ts.foldl stepTuple st).nodes := by
  induction ts with
  | nil => intro st hv hn; exact ⟨hv, hn⟩
  | cons t rest ih =>
    intro st hv hn
    rw [List.foldl_cons]
    have h := stepTuple_wf t hv hn
    exact ih _ h.1 h.2

/-- If the final entry node never appears on a terminal line, it maps to a
decision node. -/
theorem foldl_entry_decision (ts : List LineTuple) : ∀ st : ParseState, ∀ e : Nat,
    (ts.foldl stepTuple st).entry_node = some e →
    e ∉ termIdsOfTuples ts →
    (st.entry_node = some e → ∃ dn, alGet e st.nodes = some (BinaryNode.Decision dn)) →
    ∃ dn, alGet e (ts.foldl stepTuple st).nodes = some (BinaryNode.Decision dn) := by
  induction ts with
  | nil => intro st e hf _ hst; exact hst hf
  | cons t rest ih =>
    intro st e hf hterm hst
    rw [List.foldl_cons] at hf ⊢
    have htermRest : e ∉ termIdsOfTuples rest := by
      intro hm
      apply hterm
      unfold termIdsOfTuples at hm ⊢
      rw [List.filterMap_cons]
      cases hc : (if isTerminalTuple t then some t.node_num else none) with
      | none => exact hm
      | some x => exact List.mem_cons_of_mem _ hm
    apply ih (stepTuple st t) e hf htermRest
    intro h1
    rw [stepTuple_nodes]
    rw [stepTuple_entry] at h1
    unfold entryStep at h1
    by_cases hT : isTerminalTuple t
    · rw [if_pos hT] at h1
      have hne : t.node_num ≠ e := by
        intro he
        apply hterm
        unfold termIdsOfTuples
        rw [List.filterMap_cons, if_pos hT, he]
        exact List.mem_cons_self _ _
      rcases hst h1 with ⟨dn, hdn⟩
      exact ⟨dn, by rw [alGet_alInsert_ne _ _ hne]; exact hdn⟩
    · rw [if_neg hT] at h1
      cases hse : st.entry_node with
      | none =>
        rw [hse] at h1
        have he : t.node_num = e := by injection h1
        refine ⟨DecisionNode.new_node (intToUsize t.node_if_false) (intToUsize t.node_if_true) t.var_id, ?_⟩
        rw [← he, alGet_alInsert_self]
        unfold nodeOf
        rw [if_neg hT]
      | some e' =>
        rw [hse] at h1
        have he : e' = e := by injection h1
        rcases hst (he ▸ hse) with ⟨dn, hdn⟩
        by_cases hne : t.node_num = e
        · refine ⟨DecisionNode.new_node (intToUsize t.node_if_false) (intToUsize t.node_if_true) t.var_id, ?_⟩
          rw [← hne, alGet_alInsert_self]
          unfold nodeOf
          rw [if_neg hT]
        · exact ⟨dn, by rw [alGet_alInsert_ne _ _ hne]; exact hdn⟩

/-- With pairwise-distinct fresh node ids, the inserts of the loop are pure
appends: the final node map lists one entry per tuple, in order. -/
theorem nodesFold_eq_append (ts : List LineTuple) : ∀ ns : AssocMap BinaryNode,
    (idsOfTuples ts).Nodup →
    (∀ t ∈ ts, t.node_num ∉ alKeys ns) →
    nodesFold ns ts = ns ++ ts.map entryOf := by
  induction ts with
  | nil => intro ns _ _; simp [nodesFold]
  | cons t rest ih =>
    intro ns hnd hfresh
    unfold nodesFold
    rw [List.foldl_cons]
    have h1 : alInsert t.node_num (nodeOf t) ns = ns ++ [entryOf t] :=
      alInsert_not_mem _ (hfresh t (List.mem_cons_self _ _))
    rw [h1]
    unfold idsOfTuples at hnd
    rw [List.map_cons, List.nodup_cons] at hnd
    have h2 : nodesFold (ns ++ [entryOf t]) rest = (ns ++ [entryOf t]) ++ rest.map entryOf := by
      apply ih _ hnd.2
      intro t' ht'
      rw [alKeys]
      rw [List.map_append]
      intro hm
      rcases List.mem_append.mp hm with h3 | h3
      · exact hfresh t' (List.mem_cons_of_mem _ ht') h3
      · simp [entryOf] at h3
        exact hnd.1 (h3 ▸ List.mem_map_of_mem (fun t => t.node_num) ht')
    calc nodesFold (ns ++ [entryOf t]) rest = (ns ++ [entryOf t]) ++ rest.map entryOf := h2
      _ = ns ++ (t :: rest).map entryOf := by simp

/-- Everything a successful parse guarantees, in terms of the decoded tuples
and the loop fold. -/
theorem fromStr_ok_inversion {s : List Char} {d : BinaryDecisionDiagram}
    (h : fromStr s = Except.ok d) :
    ∃ ts : List LineTuple,
      decodeAll (nodeLinesOf s) = Except.ok ts ∧
      headerCounts s = some (d.variables.length, d.nodes.length) ∧
      d.variables = (ts.foldl stepTuple ⟨[], [], none⟩).variables ∧
      d.nodes = (ts.foldl stepTuple ⟨[], [], none⟩).nodes ∧
      (ts.foldl stepTuple ⟨[], [], none⟩).entry_node = some d.entry_node ∧
      hasTerminal true d.nodes = true ∧ hasTerminal false d.nodes = true := by
  unfold fromStr at h
  cases h0 : (linesOf s)[0]? with
  | none => rw [h0] at h; simp at h
  | some var_line =>
  rw [h0] at h
  dsimp only at h
  cases h1 : (linesOf s)[1]? with
  | none => rw [h1] at h; simp at h
  | some node_line =>
  rw [h1] at h
  dsimp only at h
  cases h2 : (splitWs var_line)[1]? with
  | none => rw [h2] at h; simp at h
  | some tv =>
  rw [h2] at h
  dsimp only at h
  cases h3 : parseUsize tv with
  | none => rw [h3] at h; simp at h
  | some num_vars =>
  rw [h3] at h
  dsimp only at h
  cases h4 : (splitWs node_line)[1]? with
  | none => rw [h4] at h; simp at h
  | some tn =>
  rw [h4] at h
  dsimp only at h
  cases h5 : parseUsize tn with
  | none => rw [h5] at h; simp at h
  | some num_nodes =>
  rw [h5] at h
  dsimp only at h
  rw [parseLines_eq_decodeAll] at h
  cases h6 : decodeAll ((linesOf s).drop 2) with
  | error e => rw [h6] at h; simp at h
  | ok ts =>
  rw [h6] at h
  dsimp only at h
  by_cases h7 : num_vars ≠ (ts.foldl stepTuple ⟨[], [], none⟩).variables.length ∨
      num_nodes ≠ (ts.foldl stepTuple ⟨[], [], none⟩).nodes.length
  · rw [if_pos h7] at h; simp at h
  · rw [if_neg h7] at h
    by_cases h8 : ¬(hasTerminal true (ts.foldl stepTuple ⟨[], [], none⟩).nodes = true ∧
        hasTerminal false (ts.foldl stepTuple ⟨[], [], none⟩).nodes = true)
    · rw [if_pos h8] at h; simp at h
    · rw [if_neg h8] at h
      cases h9 : (ts.foldl stepTuple ⟨[], [], none⟩).entry_node with
      | none => rw [h9] at h; simp at h
      | some e =>
        rw [h9] at h
        have hd : (⟨(ts.foldl stepTuple ⟨[], [], none⟩).variables,
            (ts.foldl stepTuple ⟨[], [], none⟩).nodes, e⟩ : BinaryDecisionDiagram) = d := by
          injection h
        push_neg at h7 h8
        refine ⟨ts, h6, ?_, ?_, ?_, ?_, ?_, ?_⟩
        · unfold headerCounts
          rw [h0]
          dsimp only
          rw [h1]
          dsimp only
          rw [h2]
          dsimp only
          rw [h3]
          dsimp only
          rw [h4]
          dsimp only
          rw [h5]
          dsimp only
          rw [← hd]
          dsimp only
          rw [h7.1, h7.2]
        · rw [← hd]
        · rw [← hd]
        · rw [← hd]
          exact h9
        · rw [← hd]
          exact h8.1
        · rw [← hd]
          exact h8.2

/-! ## Correspondence between raw-input observations and decoded tuples -/

theorem decodeAll_filterMap {β : Type} (g : LineTuple → Option β) :
    ∀ (lines : List (List Char)) (ts : List LineTuple), decodeAll lines = Except.ok ts →
    lines.filterMap (fun l => (decodeLine l).toOption.bind g) = ts.filterMap g := by
  intro lines
  induction lines with
  | nil =>
    intro ts h
    simp [decodeAll] at h
    rw [h]
    rfl
  | cons l rest ih =>
    intro ts h
    simp only [decodeAll] at h
    cases hdec : decodeLine l with
    | error e => rw [hdec] at h; simp at h
    | ok t =>
      rw [hdec] at h
      cases hall : decodeAll rest with
      | error e => rw [hall] at h; simp at h
      | ok ts' =>
        rw [hall] at h
        dsimp only at h
        injection h with h'
        rw [← h']
        rw [List.filterMap_cons, List.filterMap_cons]
        have hfl : (decodeLine l).toOption.bind g = g t := by rw [hdec]; rfl
        rw [hfl, ih ts' hall]

theorem filterMap_some_eq_map {α β : Type} (f : α → β) (l : List α) :
    l.filterMap (fun a => some (f a)) = l.map f := by
  induction l <;> simp_all

theorem nodeLineIds_eq_ids {s : List Char} {ts : List LineTuple}
    (h : decodeAll (nodeLinesOf s) = Except.ok ts) : nodeLineIds s = idsOfTuples ts := by
  unfold nodeLineIds idsOfTuples
  have h2 : (fun l => (decodeLine l).toOption.map (fun t => t.node_num))
      = (fun l => (decodeLine l).toOption.bind (fun t => some t.node_num)) := by
    funext l
    cases (decodeLine l).toOption <;> rfl
  rw [h2, decodeAll_filterMap _ _ _ h, filterMap_some_eq_map]

theorem terminalLineIds_eq_termIds {s : List Char} {ts : List LineTuple}
    (h : decodeAll (nodeLinesOf s) = Except.ok ts) :
    terminalLineIds s = termIdsOfTuples ts := by
  unfold terminalLineIds termIdsOfTuples
  exact decodeAll_filterMap _ _ _ h

/-- The variable ids contributed by decision tuples, in order. -/
def decVarIdsOfTuples (ts : List LineTuple) : List Nat :=
  ts.filterMap (fun t => if isTerminalTuple t then none else some t.var_id)

theorem decisionLineVarIds_eq {s : List Char} {ts : List LineTuple}
    (h : decodeAll (nodeLinesOf s) = Except.ok ts) :
    decisionLineVarIds s = decVarIdsOfTuples ts := by
  unfold decisionLineVarIds decVarIdsOfTuples
  exact decodeAll_filterMap _ _ _ h

theorem noMixed_tuples_aux : ∀ (lines : List (List Char)) (ts : List LineTuple),
    decodeAll lines = Except.ok ts →
    lines.all (fun l =>
      match (decodeLine l).toOption with
      | none => true
      | some t => decide (isTerminalTuple t)
          || (0 ≤ t.node_if_true && 0 ≤ t.node_if_false)) = true →
    ∀ t ∈ ts, isTerminalTuple t ∨ (0 ≤ t.node_if_true ∧ 0 ≤ t.node_if_false) := by
  intro lines
  induction lines with
  | nil =>
    intro ts hdec _ t ht
    simp [decodeAll] at hdec
    rw [hdec] at ht
    simp at ht
  | cons l rest ih =>
    intro ts hdec hall t ht
    simp only [decodeAll] at hdec
    cases hd : decodeLine l with
    | error e => rw [hd] at hdec; simp at hdec
    | ok t0 =>
      rw [hd] at hdec
      cases hr : decodeAll rest with
      | error e => rw [hr] at hdec; simp at hdec
      | ok ts' =>
        rw [hr] at hdec
        dsimp only at hdec
        injection hdec with hdec'
        rw [List.all_cons] at hall
        have h1 := (Bool.and_eq_true _ _).mp hall
        rw [← hdec'] at ht
        rcases List.mem_cons.mp ht with h2 | h2
        · subst h2
          have h3 := h1.1
          rw [hd] at h3
          dsimp only [Except.toOption] at h3
          rcases Bool.or_eq_true_iff.mp h3 with h4 | h4
          · exact Or.inl (of_decide_eq_true h4)
          · have h5 := (Bool.and_eq_true _ _).mp h4
            exact Or.inr ⟨of_decide_eq_true h5.1, of_decide_eq_true h5.2⟩
        · exact ih ts' hr h1.2 t h2

theorem noMixed_tuples {s : List Char} {ts : List LineTuple}
    (hdec : decodeAll (nodeLinesOf s) = Except.ok ts) (h : noMixedBranchLines s = true) :
    ∀ t ∈ ts, isTerminalTuple t ∨ (0 ≤ t.node_if_true ∧ 0 ≤ t.node_if_false) := by
  apply noMixed_tuples_aux (nodeLinesOf s) ts hdec
  unfold noMixedBranchLines at h
  exact h

/-! ## Evaluation-loop lemmas -/

theorem evalGo_mono (d : BinaryDecisionDiagram) : ∀ (fuel : Nat) (node : BinaryNode)
    (r : Except FlowError Bool), evalGo d node fuel = some r → evalGo d node (fuel + 1) = some r := by
  intro fuel
  induction fuel with
  | zero =>
    intro node r h
    cases node with
    | Terminal b => exact h
    | Decision dn => simp [evalGo] at h
  | succ f ih =>
    intro node r h
    cases node with
    | Terminal b => exact h
    | Decision dn =>
      rw [evalGo] at h ⊢
      cases hv : alGet dn.variable_id d.variables with
      | none => rw [hv] at h; exact h
      | some var =>
        rw [hv] at h
        dsimp only at h ⊢
        cases he : DecisionNode.evaluate dn var with
        | error e => rw [he] at h; exact h
        | ok next =>
          rw [he] at h
          dsimp only at h ⊢
          cases hn : alGet next d.nodes with
          | none => rw [hn] at h; exact h
          | some node' =>
            rw [hn] at h
            exact ih node' r h

theorem evalFuel_mono {d : BinaryDecisionDiagram} {fuel : Nat} {r : Except FlowError Bool}
    (h : evalFuel d fuel = some r) : evalFuel d (fuel + 1) = some r := by
  rw [evalFuel] at h ⊢
  cases hn : alGet d.entry_node d.nodes with
  | none => rw [hn] at h; exact h
  | some node =>
    rw [hn] at h
    exact evalGo_mono d fuel node r h

theorem evalFuel_mono_le {d : BinaryDecisionDiagram} {f f' : Nat} {r : Except FlowError Bool}
    (hle : f ≤ f') (h : evalFuel d f = some r) : evalFuel d f' = some r := by
  induction f' with
  | zero =>
    have : f = 0 := Nat.le_zero.mp hle
    rw [← this]; exact h
  | succ n ih =>
    rcases Nat.lt_or_ge f (n + 1) with h1 | h1
    · exact evalFuel_mono (ih (Nat.lt_succ_iff.mp h1))
    · have : f = n + 1 := Nat.le_antisymm hle h1
      rw [← this]; exact h

/-- Once every variable holds a value, the traversal can never produce the
unassigned-variable error. -/
theorem evalGo_no_unassigned {d : BinaryDecisionDiagram}
    (hvars : ∀ p ∈ d.variables, (p.2 : Variable).isSome) :
    ∀ (fuel : Nat) (node : BinaryNode) (r : Except FlowError Bool),
    evalGo d node fuel = some r →
    r ≠ Except.error (FlowError.EvaluationError ("Cannot evaluate node for an unassigned variable.")) := by
  intro fuel
  induction fuel with
  | zero =>
    intro node r h
    cases node with
    | Terminal b =>
      rw [evalGo] at h
      injection h with h'
      rw [← h']
      simp
    | Decision dn => simp [evalGo] at h
  | succ f ih =>
    intro node r h
    cases node with
    | Terminal b =>
      rw [evalGo] at h
      injection h with h'
      rw [← h']
      simp
    | Decision dn =>
      rw [evalGo] at h
      cases hv : alGet dn.variable_id d.variables with
      | none =>
        rw [hv] at h
        injection h with h'
        rw [← h']
        simp
      | some var =>
        rw [hv] at h
        have hs : (var : Variable).isSome := hvars _ (alGet_mem hv)
        cases var with
        | none => simp at hs
        | some b =>
          dsimp only at h
          have he : DecisionNode.evaluate dn (some b) =
              Except.ok (if b then dn.decision_map.2 else dn.decision_map.1) := by
            cases b <;> rfl
          rw [he] at h
          dsimp only at h
          cases hn : alGet (if b then dn.decision_map.2 else dn.decision_map.1) d.nodes with
          | none =>
            rw [hn] at h
            injection h with h'
            rw [← h']
            intro hcontra
            injection hcontra with hmsg
            injection hmsg with hmsg2
            simp at hmsg2
          | some node' =>
            rw [hn] at h
            exact ih node' r h

/-! ## Claim C8: DecisionNode::evaluate -/

/-- C8: for every decision node and every Variable value,
`DecisionNode::evaluate` returns the true-branch on `Some(true)`, the
false-branch on `Some(false)`, and the unassigned-variable
`EvaluationError` on `None`. -/
theorem claim_C8_decision_evaluate (node_if_false node_if_true variable_id : Nat) :
    (DecisionNode.new_node node_if_false node_if_true variable_id).evaluate (some true)
        = Except.ok node_if_true ∧
    (DecisionNode.new_node node_if_false node_if_true variable_id).evaluate (some false)
        = Except.ok node_if_false ∧
    (DecisionNode.new_node node_if_false node_if_true variable_id).evaluate none
        = Except.error (FlowError.EvaluationError ("Cannot evaluate node for an unassigned variable.")) :=
  ⟨rfl, rfl, rfl⟩

/-! ## Claim C2: eval on a freshly parsed diagram -/

/-- C2, counterexample to the claim as stated: this input parses, the result
still holds a decision node (node 2), yet a later line overwrote the entry
node 0 with a terminal, so a fresh `eval()` returns `Ok(true)`, not an
`EvaluationError`. -/
def c2xSrc : List Char := ("vars 1\nnodes 3\n0 2 1 0\n0 -1 -1 1\n2 2 1 0\n1 -1 -1 0").toList

/-- The diagram the counterexample input parses to. -/
def c2xD : BinaryDecisionDiagram :=
  ⟨[(0, none)],
   [(0, BinaryNode.Terminal true),
    (2, BinaryNode.Decision ⟨0, (1, 2)⟩),
    (1, BinaryNode.Terminal false)], 0⟩

/-- C2 fails as stated: a freshly parsed diagram with at least one decision
node whose entry node was overwritten by a terminal line evaluates to
`Ok(true)` without any assignment, and can never produce the
unassigned-variable error. -/
theorem claim_C2_counterexample :
    fromStr c2xSrc = Except.ok c2xD ∧
    c2xD.nodes.any (fun p => p.2.is_decision_node) = true ∧
    evalFuel c2xD 0 = some (Except.ok true) ∧
    ¬ EvalResult c2xD (Except.error (FlowError.EvaluationError
      ("Cannot evaluate node for an unassigned variable."))) := by
  refine ⟨rfl, rfl, rfl, ?_⟩
  rintro ⟨f, hf⟩
  have hev : evalFuel c2xD f = some (Except.ok true) := by
    cases f <;> rfl
  rw [hev] at hf
  simp at hf

/-- C2 (amended): `eval()` on a freshly parsed diagram fails with the
unassigned-variable `EvaluationError` whenever the entry node maps to a
decision node (which the parse guarantees unless a later input line reused
the entry node's id for a terminal). -/
theorem claim_C2_unassigned_eval {s : List Char} {d : BinaryDecisionDiagram}
    {dn : DecisionNode}
    (hp : fromStr s = Except.ok d)
    (hentry : alGet d.entry_node d.nodes = some (BinaryNode.Decision dn)) :
    EvalResult d (Except.error (FlowError.EvaluationError
      ("Cannot evaluate node for an unassigned variable."))) := by
  obtain ⟨ts, hdec, hhc, hvars, hnodes, hent, hT, hF⟩ := fromStr_ok_inversion hp
  have hdv : DecVarsPresent (ts.foldl stepTuple ⟨[], [], none⟩) := by
    apply foldl_decVarsPresent
    intro p hp' dn' h'
    simp at hp'
  have hvn : ∀ p ∈ d.variables, p.2 = (none : Variable) := by
    rw [hvars, foldl_stepTuple_variables]
    apply varsFold_none
    intro p hp'
    simp at hp'
  have hmemN : (d.entry_node, BinaryNode.Decision dn) ∈ d.nodes := alGet_mem hentry
  have hvarmem : dn.variable_id ∈ alKeys d.variables := by
    rw [hvars]
    rw [hnodes] at hmemN
    exact hdv _ hmemN dn rfl
  obtain ⟨v, hv⟩ := Option.isSome_iff_exists.mp ((alGet_isSome_iff_mem _ _).mpr hvarmem)
  have hvnone : v = none := hvn _ (alGet_mem hv)
  subst hvnone
  refine ⟨1, ?_⟩
  rw [evalFuel, hentry]
  dsimp only
  show evalGo d (BinaryNode.Decision dn) (0 + 1) = _
  rw [evalGo, hv]
  rfl

/-- Witness input for C2: the two-variable example diagram of the test suite,
whose entry node is the decision node 1. -/
def c2wSrc : List Char := ("vars 2\nnodes 4\n1 4 2 1\n2 4 3 2\n3 -1 -1 0\n4 -1 -1 1").toList

/-- The diagram the witness input parses to. -/
def c2wD : BinaryDecisionDiagram :=
  ⟨[(1, none), (2, none)],
   [(1, BinaryNode.Decision ⟨1, (2, 4)⟩),
    (2, BinaryNode.Decision ⟨2, (3, 4)⟩),
    (3, BinaryNode.Terminal false),
    (4, BinaryNode.Terminal true)], 1⟩

theorem claim_C2_unassigned_eval_witness :
    EvalResult c2wD (Except.error (FlowError.EvaluationError
      ("Cannot evaluate node for an unassigned variable."))) :=
  claim_C2_unassigned_eval (rfl : fromStr c2wSrc = Except.ok c2wD) rfl

/-! ## Claim C4: the entry node -/

/-- C4, counterexample input: a later terminal line reuses the entry node's
id, so the parsed entry node maps to a terminal, not a decision node. -/
def c4xSrc : List Char := ("vars 1\nnodes 2\n0 2 1 0\n0 -1 -1 1\n1 -1 -1 0").toList

/-- The diagram the C4 counterexample parses to. -/
def c4xD : BinaryDecisionDiagram :=
  ⟨[(0, none)], [(0, BinaryNode.Terminal true), (1, BinaryNode.Terminal false)], 0⟩

/-- C4 fails as stated: when a later input line reuses the entry node's id
as a terminal line, the parse still succeeds and the entry node maps to a
Terminal node, not a Decision node. -/
theorem claim_C4_counterexample :
    fromStr c4xSrc = Except.ok c4xD ∧
    alGet c4xD.entry_node c4xD.nodes = some (BinaryNode.Terminal true) :=
  ⟨rfl, rfl⟩

/-- C4 (amended): for every successfully parsed diagram the entry node is a
key of the node map; it maps to a Decision node provided no terminal line
carries the entry node's id (a later decision line may reuse it harmlessly,
but a terminal line overwrites it). -/
theorem claim_C4_entry_node {s : List Char} {d : BinaryDecisionDiagram}
    (hp : fromStr s = Except.ok d) :
    d.entry_node ∈ alKeys d.nodes ∧
    (d.entry_node ∉ terminalLineIds s →
      ∃ dn, alGet d.entry_node d.nodes = some (BinaryNode.Decision dn)) := by
  obtain ⟨ts, hdec, hhc, hvars, hnodes, hent, hT, hF⟩ := fromStr_ok_inversion hp
  constructor
  · rw [hnodes]
    have h0 : EntryPresent (⟨[], [], none⟩ : ParseState) := by
      intro e he
      simp at he
    exact foldl_entryPresent ts _ h0 d.entry_node hent
  · intro hterm
    rw [terminalLineIds_eq_termIds hdec] at hterm
    rw [hnodes]
    apply foldl_entry_decision ts ⟨[], [], none⟩ d.entry_node hent hterm
    intro he
    simp at he

/-- Witness input for C4: the two-variable example of the test suite. -/
def c4wSrc : List Char := ("vars 2\nnodes 4\n1 4 2 1\n2 4 3 2\n3 -1 -1 0\n4 -1 -1 1").toList

/-- The diagram the C4 witness input parses to. -/
def c4wD : BinaryDecisionDiagram :=
  ⟨[(1, none), (2, none)],
   [(1, BinaryNode.Decision ⟨1, (2, 4)⟩),
    (2, BinaryNode.Decision ⟨2, (3, 4)⟩),
    (3, BinaryNode.Terminal false),
    (4, BinaryNode.Terminal true)], 1⟩

theorem claim_C4_entry_node_witness :
    c4wD.entry_node ∈ alKeys c4wD.nodes ∧
    (∃ dn, alGet c4wD.entry_node c4wD.nodes = some (BinaryNode.Decision dn)) := by
  have h := claim_C4_entry_node (rfl : fromStr c4wSrc = Except.ok c4wD)
  refine ⟨h.1, h.2 ?_⟩
  decide

/-! ## assign_vars lemmas -/

theorem assignLoop_keys : ∀ (ks : List Nat) (vars : AssocMap Variable) (bools : List Bool)
    (i : Nat) (out : AssocMap Variable), assignLoop vars bools ks i = Except.ok out →
    alKeys out = alKeys vars := by
  intro ks
  induction ks with
  | nil =>
    intro vars bools i out h
    rw [assignLoop] at h
    injection h with h'
    rw [← h']
  | cons k rest ih =>
    intro vars bools i out h
    rw [assignLoop] at h
    cases hb : bools[i]? with
    | none => rw [hb] at h; simp at h
    | some b =>
      rw [hb] at h
      dsimp only at h
      by_cases hg : (alGet k vars).isSome
      · rw [if_pos hg] at h
        have hk : k ∈ alKeys vars := (alGet_isSome_iff_mem _ _).mp hg
        rw [ih _ _ _ _ h]
        exact alKeys_alInsert_mem _ hk
      · rw [if_neg hg] at h
        simp at h

theorem assignLoop_ok : ∀ (ks : List Nat) (vars : AssocMap Variable) (bools : List Bool)
    (i : Nat), (∀ k ∈ ks, k ∈ alKeys vars) → i + ks.length ≤ bools.length →
    ∃ out, assignLoop vars bools ks i = Except.ok out := by
  intro ks
  induction ks with
  | nil => intro vars bools i _ _; exact ⟨vars, rfl⟩
  | cons k rest ih =>
    intro vars bools i hks hlen
    have hi : i < bools.length := by
      simp [List.length_cons] at hlen
      omega
    have hb : bools[i]? = some bools[i] := List.getElem?_eq_getElem hi
    have hk : k ∈ alKeys vars := hks k (List.mem_cons_self _ _)
    have hg : (alGet k vars).isSome := (alGet_isSome_iff_mem _ _).mpr hk
    have hks' : ∀ k' ∈ rest, k' ∈ alKeys (alInsert k (some bools[i]) vars) := by
      intro k' hk'
      rw [alKeys_alInsert_mem _ hk]
      exact hks k' (List.mem_cons_of_mem _ hk')
    have hlen' : (i + 1) + rest.length ≤ bools.length := by
      simp [List.length_cons] at hlen
      omega
    obtain ⟨out, hout⟩ := ih (alInsert k (some bools[i]) vars) bools (i + 1) hks' hlen'
    refine ⟨out, ?_⟩
    rw [assignLoop, hb]
    dsimp only
    rw [if_pos hg]
    exact hout

theorem assignLoop_untouched : ∀ (ks : List Nat) (vars : AssocMap Variable) (bools : List Bool)
    (i : Nat) (out : AssocMap Variable) (k0 : Nat), k0 ∉ ks →
    assignLoop vars bools ks i = Except.ok out → alGet k0 out = alGet k0 vars := by
  intro ks
  induction ks with
  | nil =>
    intro vars bools i out k0 _ h
    rw [assignLoop] at h
    injection h with h'
    rw [← h']
  | cons k rest ih =>
    intro vars bools i out k0 hk0 h
    rw [assignLoop] at h
    cases hb : bools[i]? with
    | none => rw [hb] at h; simp at h
    | some b =>
      rw [hb] at h
      dsimp only at h
      by_cases hg : (alGet k vars).isSome
      · rw [if_pos hg] at h
        have h1 : k0 ∉ rest := fun hm => hk0 (List.mem_cons_of_mem _ hm)
        have h2 : k ≠ k0 := fun he => hk0 (he ▸ List.mem_cons_self _ _)
        rw [ih _ _ _ _ _ h1 h, alGet_alInsert_ne _ _ h2]
      · rw [if_neg hg] at h
        simp at h

theorem assignLoop_lookup : ∀ (ks : List Nat) (vars : AssocMap Variable) (bools : List Bool)
    (i : Nat) (out : AssocMap Variable), ks.Nodup →
    assignLoop vars bools ks i = Except.ok out →
    ∀ (j : Nat) (k0 : Nat), ks[j]? = some k0 →
    ∃ b, bools[i + j]? = some b ∧ alGet k0 out = some (some b) := by
  intro ks
  induction ks with
  | nil =>
    intro vars bools i out _ h j k0 hj
    simp at hj
  | cons k rest ih =>
    intro vars bools i out hnd h j k0 hj
    rw [assignLoop] at h
    cases hb : bools[i]? with
    | none => rw [hb] at h; simp at h
    | some b =>
      rw [hb] at h
      dsimp only at h
      by_cases hg : (alGet k vars).isSome
      · rw [if_pos hg] at h
        rw [List.nodup_cons] at hnd
        cases j with
        | zero =>
          have hk0 : k = k0 := by simpa using hj
          refine ⟨b, by simpa using hb, ?_⟩
          rw [assignLoop_untouched rest _ bools (i + 1) out k0 (hk0 ▸ hnd.1) h]
          rw [← hk0, alGet_alInsert_self]
        | succ j' =>
          have hj' : rest[j']? = some k0 := by simpa using hj
          obtain ⟨b', hb', hg'⟩ := ih _ bools (i + 1) out hnd.2 h j' k0 hj'
          refine ⟨b', ?_, hg'⟩
          rw [show i + (j' + 1) = (i + 1) + j' by omega]
          exact hb'
      · rw [if_neg hg] at h
        simp at h

theorem collectVals_ok : ∀ vars : AssocMap Variable,
    (∀ p ∈ vars, (p.2 : Variable).isSome) → ∃ out, collectVals vars = Except.ok out := by
  intro vars
  induction vars with
  | nil => intro _; exact ⟨[], rfl⟩
  | cons p rest ih =>
    intro h
    have hp := h p (List.mem_cons_self _ _)
    cases hv : (p.2 : Variable) with
    | none => rw [hv] at hp; simp at hp
    | some b =>
      obtain ⟨out, hout⟩ := ih (fun q hq => h q (List.mem_cons_of_mem _ hq))
      refine ⟨b :: out, ?_⟩
      rw [collectVals, hv, hout]

/-- Master lemma: with enough values supplied, `assign_vars` succeeds, keeps
the key set and order, assigns positionally along the sorted keys, and leaves
every variable assigned. -/
theorem assign_vars_ok {d : BinaryDecisionDiagram} {values : List Bool}
    (hwf : WFAssocMap d.variables) (hlen : d.variables.length ≤ values.length) :
    ∃ (out : List Bool) (vars' : AssocMap Variable),
      assign_vars d values = (Except.ok out, { d with «variables» := vars' }) ∧
      alKeys vars' = alKeys d.variables ∧
      (∀ (j k0 : Nat), (sortedVarKeys d.variables)[j]? = some k0 →
        ∃ b, (values.take d.variables.length)[j]? = some b ∧ alGet k0 vars' = some (some b)) ∧
      (∀ p ∈ vars', (p.2 : Variable).isSome) ∧
      assignLoop d.variables (values.take d.variables.length) (sortedVarKeys d.variables) 0
        = Except.ok vars' := by
  have hperm : List.Perm (sortedVarKeys d.variables) (alKeys d.variables) :=
    List.perm_insertionSort _ _
  have hkeyslen : (alKeys d.variables).length = d.variables.length := List.length_map _ _
  have hkslen : (sortedVarKeys d.variables).length = d.variables.length := by
    rw [hperm.length_eq, hkeyslen]
  have hblen : (values.take d.variables.length).length = d.variables.length := by
    rw [List.length_take]
    exact Nat.min_eq_left hlen
  have hkmem : ∀ k ∈ sortedVarKeys d.variables, k ∈ alKeys d.variables :=
    fun k hk => hperm.mem_iff.mp hk
  obtain ⟨vars', hloop⟩ := assignLoop_ok (sortedVarKeys d.variables) d.variables
    (values.take d.variables.length) 0 hkmem (by rw [hkslen, hblen]; omega)
  have hkeys : alKeys vars' = alKeys d.variables :=
    assignLoop_keys _ _ _ _ _ hloop
  have hnd : (sortedVarKeys d.variables).Nodup := hperm.nodup_iff.mpr hwf
  have hlk : ∀ (j k0 : Nat), (sortedVarKeys d.variables)[j]? = some k0 →
      ∃ b, (values.take d.variables.length)[j]? = some b ∧ alGet k0 vars' = some (some b) := by
    intro j k0 hj
    obtain ⟨b, hb, hg⟩ := assignLoop_lookup _ _ _ _ _ hnd hloop j k0 hj
    exact ⟨b, by simpa using hb, hg⟩
  have hwf' : WFAssocMap vars' := by
    unfold WFAssocMap
    rw [hkeys]
    exact hwf
  have hsome : ∀ p ∈ vars', (p.2 : Variable).isSome := by
    intro p hp
    have hg : alGet p.1 vars' = some p.2 := mem_alGet hwf' hp
    have hmem : p.1 ∈ sortedVarKeys d.variables := by
      apply hperm.mem_iff.mpr
      rw [← hkeys]
      exact List.mem_map_of_mem (fun q => q.1) hp
    obtain ⟨j, hj⟩ := List.mem_iff_getElem?.mp hmem
    obtain ⟨b, _, hg'⟩ := hlk j p.1 hj
    rw [hg] at hg'
    injection hg' with h'
    rw [h']
    rfl
  obtain ⟨outv, hcol⟩ := collectVals_ok vars' hsome
  refine ⟨outv, vars', ?_, hkeys, hlk, hsome, hloop⟩
  unfold assign_vars
  rw [if_neg (not_lt.mpr hlen)]
  dsimp only
  rw [hloop]
  dsimp only
  rw [hcol]

/-! ## Claim C3: assign_vars length contract -/

/-- C3, counterexample diagram: one variable. -/
def c3xD : BinaryDecisionDiagram :=
  ⟨[(0, none)],
   [(0, BinaryNode.Decision ⟨0, (1, 2)⟩),
    (1, BinaryNode.Terminal false),
    (2, BinaryNode.Terminal true)], 0⟩

/-- C3 fails as stated: supplying two values to a one-variable diagram is
accepted (`Ok`), not rejected — the code only rejects when too few values
are supplied (its own test `too_many_vars` pins this down). -/
theorem claim_C3_counterexample :
    c3xD.variables.length = 1 ∧
    (assign_vars c3xD [true, true]).1 = Except.ok [true] :=
  ⟨rfl, rfl⟩

/-- C3 (amended): `assign_vars(values)` fails — with a
`VariableAssignmentError` — exactly when `values.len()` is strictly less
than the number of variables; with at least as many values as variables it
succeeds, truncating the excess. -/
theorem claim_C3_assign_length (d : BinaryDecisionDiagram) (values : List Bool)
    (hwf : WFAssocMap d.variables) :
    (values.length < d.variables.length →
      (assign_vars d values).1 = Except.error (FlowError.VariableAssignmentError
        ("The length of values is less than the number of variables to assign."))) ∧
    (d.variables.length ≤ values.length →
      ∃ out, (assign_vars d values).1 = Except.ok out) := by
  constructor
  · intro hlt
    unfold assign_vars
    rw [if_pos hlt]
  · intro hle
    obtain ⟨out, vars', heq, _, _, _, _⟩ := assign_vars_ok hwf hle
    exact ⟨out, by rw [heq]⟩

theorem claim_C3_assign_length_witness :
    ((assign_vars c3xD []).1 = Except.error (FlowError.VariableAssignmentError
      ("The length of values is less than the number of variables to assign."))) ∧
    (∃ out, (assign_vars c3xD [true]).1 = Except.ok out) :=
  ⟨(claim_C3_assign_length c3xD [] (by decide)).1 (by decide),
   (claim_C3_assign_length c3xD [true] (by decide)).2 (by decide)⟩

/-! ## Claim C7: the ordering invariant of assign_vars -/

/-- C7: whenever `assign_vars` succeeds, the keys it walks are the variable
ids in ascending sorted order (a sorted permutation of the key set), and the
i-th supplied boolean is bound to the i-th smallest variable id — regardless
of the order the ids were inserted at parse time. -/
theorem claim_C7_ordering (d : BinaryDecisionDiagram) (values : List Bool)
    (out : List Bool) (d' : BinaryDecisionDiagram)
    (hwf : WFAssocMap d.variables)
    (h : assign_vars d values = (Except.ok out, d')) :
    List.Sorted (· ≤ ·) (sortedVarKeys d.variables) ∧
    List.Perm (sortedVarKeys d.variables) (alKeys d.variables) ∧
    (∀ (j k0 : Nat), (sortedVarKeys d.variables)[j]? = some k0 →
      ∃ b, values[j]? = some b ∧ alGet k0 d'.variables = some (some b)) := by
  have hlen : d.variables.length ≤ values.length := by
    by_contra hc
    push_neg at hc
    have : assign_vars d values = (Except.error (FlowError.VariableAssignmentError
        ("The length of values is less than the number of variables to assign.")), d) := by
      unfold assign_vars
      rw [if_pos hc]
    rw [this] at h
    injection h with h1 h2
    simp at h1
  obtain ⟨out0, vars', heq, hkeys, hlk, hsome, _⟩ := assign_vars_ok hwf hlen
  rw [heq] at h
  injection h with h1 h2
  refine ⟨List.sorted_insertionSort _ _, List.perm_insertionSort _ _, ?_⟩
  intro j k0 hj
  obtain ⟨b, hb, hg⟩ := hlk j k0 hj
  have hjlen : j < d.variables.length := by
    have hperm : List.Perm (sortedVarKeys d.variables) (alKeys d.variables) :=
      List.perm_insertionSort _ _
    have : j < (sortedVarKeys d.variables).length := by
      by_contra hc
      push_neg at hc
      rw [List.getElem?_eq_none hc] at hj
      simp at hj
    rw [hperm.length_eq] at this
    simpa [alKeys] using this
  refine ⟨b, ?_, ?_⟩
  · rw [← hb, List.getElem?_take_of_lt hjlen]
  · rw [← h2]
    exact hg

/-- C7 witness diagram: variable ids inserted out of order (5 before 3). -/
def c7wD : BinaryDecisionDiagram :=
  ⟨[(5, none), (3, none)],
   [(0, BinaryNode.Decision ⟨5, (2, 3)⟩),
    (1, BinaryNode.Decision ⟨3, (2, 3)⟩),
    (2, BinaryNode.Terminal false),
    (3, BinaryNode.Terminal true)], 0⟩

theorem claim_C7_ordering_witness :
    alGet 3 (assign_vars c7wD [true, false]).2.variables = some (some true) ∧
    alGet 5 (assign_vars c7wD [true, false]).2.variables = some (some false) := by
  have h := claim_C7_ordering c7wD [true, false] [false, true]
    (assign_vars c7wD [true, false]).2 (by decide) rfl
  constructor
  · obtain ⟨b, hb, hg⟩ := h.2.2 0 3 rfl
    have hbt : b = true := by
      have : some true = some b := by simpa using hb.symm
      injection this with h'
      exact h'.symm
    rw [hbt] at hg
    exact hg
  · obtain ⟨b, hb, hg⟩ := h.2.2 1 5 rfl
    have hbt : b = false := by
      have : some false = some b := by simpa using hb.symm
      injection this with h'
      exact h'.symm
    rw [hbt] at hg
    exact hg

/-! ## Claim C9: after a successful assign_vars, no variable is unassigned -/

/-- C9: when `assign_vars` returns `Ok`, every variable of the diagram holds
a value, so a later `eval()` can never produce the unassigned-variable
`EvaluationError` (it may still fail on a dangling node id). -/
theorem claim_C9_all_assigned (d : BinaryDecisionDiagram) (values : List Bool)
    (out : List Bool) (d' : BinaryDecisionDiagram)
    (hwf : WFAssocMap d.variables)
    (h : assign_vars d values = (Except.ok out, d')) :
    (∀ p ∈ d'.variables, (p.2 : Variable).isSome) ∧
    ∀ r, EvalResult d' r →
      r ≠ Except.error (FlowError.EvaluationError
        ("Cannot evaluate node for an unassigned variable.")) := by
  have hlen : d.variables.length ≤ values.length := by
    by_contra hc
    push_neg at hc
    have : assign_vars d values = (Except.error (FlowError.VariableAssignmentError
        ("The length of values is less than the number of variables to assign.")), d) := by
      unfold assign_vars
      rw [if_pos hc]
    rw [this] at h
    injection h with h1 h2
    simp at h1
  obtain ⟨out0, vars', heq, hkeys, hlk, hsome, _⟩ := assign_vars_ok hwf hlen
  rw [heq] at h
  injection h with h1 h2
  have hsome' : ∀ p ∈ d'.variables, (p.2 : Variable).isSome := by
    rw [← h2]
    exact hsome
  refine ⟨hsome', ?_⟩
  rintro r ⟨fuel, hf⟩
  rw [evalFuel] at hf
  cases hn : alGet d'.entry_node d'.nodes with
  | none =>
    rw [hn] at hf
    injection hf with h'
    rw [← h']
    intro hcontra
    injection hcontra with hmsg
    injection hmsg with hmsg2
    simp at hmsg2
  | some node =>
    rw [hn] at hf
    exact evalGo_no_unassigned hsome' fuel node r hf

/-- C9 witness diagram: one variable, entry decision node. -/
def c9wD : BinaryDecisionDiagram :=
  ⟨[(0, none)],
   [(0, BinaryNode.Decision ⟨0, (1, 2)⟩),
    (1, BinaryNode.Terminal false),
    (2, BinaryNode.Terminal true)], 0⟩

theorem claim_C9_all_assigned_witness :
    ¬ EvalResult (assign_vars c9wD [true]).2 (Except.error (FlowError.EvaluationError
      ("Cannot evaluate node for an unassigned variable."))) := by
  intro hr
  exact (claim_C9_all_assigned c9wD [true] [true] (assign_vars c9wD [true]).2
    (by decide) rfl).2 _ hr rfl

/-! ## Claim C10: failed assign_vars leaves the variable map unchanged -/

/-- C10: whenever `assign_vars` returns an error, the diagram is exactly as
it was before the call — the only reachable error (the length check) occurs
before any mutation. -/
theorem claim_C10_atomic_failure (d : BinaryDecisionDiagram) (values : List Bool)
    (e : FlowError)
    (hwf : WFAssocMap d.variables)
    (h : (assign_vars d values).1 = Except.error e) :
    (assign_vars d values).2 = d := by
  by_cases hlen : values.length < d.variables.length
  · unfold assign_vars
    rw [if_pos hlen]
  · push_neg at hlen
    obtain ⟨out0, vars', heq, _, _, _, _⟩ := assign_vars_ok hwf hlen
    rw [heq] at h
    simp at h

/-- C10 witness: the one-variable diagram with an empty value list. -/
def c10wD : BinaryDecisionDiagram :=
  ⟨[(0, none)],
   [(0, BinaryNode.Decision ⟨0, (1, 2)⟩),
    (1, BinaryNode.Terminal false),
    (2, BinaryNode.Terminal true)], 0⟩

theorem claim_C10_atomic_failure_witness :
    (assign_vars c10wD []).2 = c10wD :=
  claim_C10_atomic_failure c10wD [] (FlowError.VariableAssignmentError
    ("The length of values is less than the number of variables to assign."))
    (by decide) rfl

/-! ## Key-count lemmas for the declared-count check (C6) -/

theorem nodesFold_keys_toFinset (ts : List LineTuple) : ∀ ns : AssocMap BinaryNode,
    (alKeys (nodesFold ns ts)).toFinset = (alKeys ns).toFinset ∪ (idsOfTuples ts).toFinset := by
  induction ts with
  | nil =>
    intro ns
    simp [nodesFold, idsOfTuples]
  | cons t rest ih =>
    intro ns
    have h1 : nodesFold ns (t :: rest) = nodesFold (alInsert t.node_num (nodeOf t) ns) rest := rfl
    rw [h1, ih, alKeys_toFinset_alInsert]
    unfold idsOfTuples
    rw [List.map_cons, List.toFinset_cons]
    ext x
    simp only [Finset.mem_union, Finset.mem_insert, List.mem_toFinset]
    tauto

theorem varsFold_keys_toFinset (ts : List LineTuple) : ∀ vs : AssocMap Variable,
    (alKeys (ts.foldl varsStep vs)).toFinset
      = (alKeys vs).toFinset ∪ (decVarIdsOfTuples ts).toFinset := by
  induction ts with
  | nil =>
    intro vs
    simp [decVarIdsOfTuples]
  | cons t rest ih =>
    intro vs
    rw [List.foldl_cons, ih]
    by_cases hT : isTerminalTuple t
    · have h1 : varsStep vs t = vs := by unfold varsStep; rw [if_pos hT]
      have h2 : decVarIdsOfTuples (t :: rest) = decVarIdsOfTuples rest := by
        unfold decVarIdsOfTuples
        rw [List.filterMap_cons, if_pos hT]
      rw [h1, h2]
    · have h2 : decVarIdsOfTuples (t :: rest) = t.var_id :: decVarIdsOfTuples rest := by
        unfold decVarIdsOfTuples
        rw [List.filterMap_cons, if_neg hT]
      rw [h2, List.toFinset_cons]
      by_cases hg : (alGet t.var_id vs).isSome
      · have h1 : varsStep vs t = vs := by unfold varsStep; rw [if_neg hT, if_pos hg]
        have hmem : t.var_id ∈ (alKeys vs).toFinset :=
          List.mem_toFinset.mpr ((alGet_isSome_iff_mem _ _).mp hg)
        rw [h1]
        ext x
        simp only [Finset.mem_union, Finset.mem_insert, List.mem_toFinset]
        constructor
        · rintro (h3 | h3)
          · exact Or.inl h3
          · exact Or.inr (Or.inr h3)
        · rintro (h3 | h3 | h3)
          · exact Or.inl h3
          · rw [h3]
            exact Or.inl (List.mem_toFinset.mp hmem)
          · exact Or.inr h3
      · have h1 : varsStep vs t = alInsert t.var_id (none : Variable) vs := by
          unfold varsStep
          rw [if_neg hT, if_neg hg]
        rw [h1, alKeys_toFinset_alInsert]
        ext x
        simp only [Finset.mem_union, Finset.mem_insert, List.mem_toFinset]
        tauto

/-! ## Claim C6: the declared-count check -/

/-- C6, counterexample input: four node lines but only three distinct node
ids; the header declares 3 nodes and the parse succeeds. -/
def c6xSrc : List Char :=
  ("vars 1\nnodes 3\n0 2 1 0\n1 -1 -1 0\n2 -1 -1 1\n2 -1 -1 1").toList

/-- The diagram the C6 counterexample parses to. -/
def c6xD : BinaryDecisionDiagram :=
  ⟨[(0, none)],
   [(0, BinaryNode.Decision ⟨0, (1, 2)⟩),
    (1, BinaryNode.Terminal false),
    (2, BinaryNode.Terminal true)], 0⟩

/-- C6 fails as stated: an input whose node lines exceed the declared M in
number is accepted when the surplus lines repeat an id — the check compares
M against the size of the node map (distinct ids), not the line count. -/
theorem claim_C6_counterexample :
    fromStr c6xSrc = Except.ok c6xD ∧
    (nodeLinesOf c6xSrc).length = 4 ∧
    headerCounts c6xSrc = some (1, 3) :=
  ⟨rfl, rfl, rfl⟩

/-- C6 (amended): a successful parse forces the declared N to equal the
number of distinct variable ids collected from decision lines, and the
declared M to equal the number of distinct node ids among the node lines
(the size of the node map); duplicate ids collapse, so the line count may
exceed M. -/
theorem claim_C6_count_check {s : List Char} {d : BinaryDecisionDiagram}
    (hp : fromStr s = Except.ok d) :
    headerCounts s = some (d.variables.length, d.nodes.length) ∧
    d.nodes.length = (nodeLineIds s).toFinset.card ∧
    d.variables.length = (decisionLineVarIds s).toFinset.card := by
  obtain ⟨ts, hdec, hhc, hvars, hnodes, hent, hT, hF⟩ := fromStr_ok_inversion hp
  have hwf := foldl_wf ts ⟨[], [], none⟩ (by simp [WFAssocMap, alKeys]) (by simp [WFAssocMap, alKeys])
  refine ⟨hhc, ?_, ?_⟩
  · rw [nodeLineIds_eq_ids hdec]
    have h1 : (alKeys d.nodes).toFinset = (idsOfTuples ts).toFinset := by
      rw [hnodes, foldl_stepTuple_nodes]
      rw [nodesFold_keys_toFinset]
      simp [alKeys]
    have h2 : (alKeys d.nodes).Nodup := by
      rw [hnodes]
      exact hwf.2
    have h3 : d.nodes.length = (alKeys d.nodes).length := by
      unfold alKeys
      rw [List.length_map]
    rw [h3, ← List.toFinset_card_of_nodup h2, h1]
  · rw [decisionLineVarIds_eq hdec]
    have h1 : (alKeys d.variables).toFinset = (decVarIdsOfTuples ts).toFinset := by
      rw [hvars, foldl_stepTuple_variables]
      rw [varsFold_keys_toFinset]
      simp [alKeys]
    have h2 : (alKeys d.variables).Nodup := by
      rw [hvars]
      exact hwf.1
    have h3 : d.variables.length = (alKeys d.variables).length := by
      unfold alKeys
      rw [List.length_map]
    rw [h3, ← List.toFinset_card_of_nodup h2, h1]

/-- C6 witness input: the counterexample input itself exercises the amended
claim — declared (1, 3) equals (distinct decision var ids, distinct node
ids) even though there are four node lines. -/
def c6wSrc : List Char :=
  ("vars 1\nnodes 3\n0 2 1 0\n1 -1 -1 0\n2 -1 -1 1\n2 -1 -1 1").toList

/-- The diagram the C6 witness input parses to. -/
def c6wD : BinaryDecisionDiagram :=
  ⟨[(0, none)],
   [(0, BinaryNode.Decision ⟨0, (1, 2)⟩),
    (1, BinaryNode.Terminal false),
    (2, BinaryNode.Terminal true)], 0⟩

theorem claim_C6_count_check_witness :
    headerCounts c6wSrc = some (c6wD.variables.length, c6wD.nodes.length) ∧
    c6wD.nodes.length = (nodeLineIds c6wSrc).toFinset.card ∧
    c6wD.variables.length = (decisionLineVarIds c6wSrc).toFinset.card :=
  claim_C6_count_check (rfl : fromStr c6wSrc = Except.ok c6wD)

/-! ## State-independence of assignment (used by truth_table) -/

theorem convert_bits_to_bools_length (bits : Nat) : ∀ n : Nat,
    (convert_bits_to_bools bits n).length = n := by
  intro n
  induction n generalizing bits with
  | zero => rfl
  | succ m ih =>
    rw [convert_bits_to_bools, List.length_cons, ih]

/-- Two assignment loops over the same sorted keys and values end in the same
map, whatever the previous values were: every covered key is overwritten, and
a key outside the cover is outside both maps. -/
theorem assignLoop_state_eq {vars₁ vars₂ : AssocMap Variable} {bools : List Bool}
    {ks : List Nat} {out₁ out₂ : AssocMap Variable}
    (hkeys : alKeys vars₁ = alKeys vars₂) (hwf : WFAssocMap vars₁)
    (hnd : ks.Nodup) (hcover : ∀ k ∈ alKeys vars₁, k ∈ ks)
    (h₁ : assignLoop vars₁ bools ks 0 = Except.ok out₁)
    (h₂ : assignLoop vars₂ bools ks 0 = Except.ok out₂) :
    out₁ = out₂ := by
  have hk₁ : alKeys out₁ = alKeys vars₁ := assignLoop_keys _ _ _ _ _ h₁
  have hk₂ : alKeys out₂ = alKeys vars₂ := assignLoop_keys _ _ _ _ _ h₂
  apply alExt
  · rw [hk₁, hk₂, hkeys]
  · unfold WFAssocMap
    rw [hk₁]
    exact hwf
  · intro k
    by_cases hm : k ∈ ks
    · obtain ⟨j, hj⟩ := List.mem_iff_getElem?.mp hm
      obtain ⟨b₁, hb₁, hg₁⟩ := assignLoop_lookup _ _ _ _ _ hnd h₁ j k hj
      obtain ⟨b₂, hb₂, hg₂⟩ := assignLoop_lookup _ _ _ _ _ hnd h₂ j k hj
      rw [hb₁] at hb₂
      injection hb₂ with hb
      rw [hg₁, hg₂, hb]
    · have hni₁ : k ∉ alKeys vars₁ := fun hmem => hm (hcover k hmem)
      have hni₂ : k ∉ alKeys vars₂ := hkeys ▸ hni₁
      rw [assignLoop_untouched _ _ _ _ _ _ hm h₁,
        assignLoop_untouched _ _ _ _ _ _ hm h₂,
        (alGet_eq_none_iff _ _).mpr hni₁, (alGet_eq_none_iff _ _).mpr hni₂]

/-- The diagram state after a (successful) `assign_vars` only depends on the
variable ids, the nodes and the entry node — not on earlier values. -/
theorem assign_state_congr {d₁ d₂ : BinaryDecisionDiagram} {values : List Bool}
    (hn : d₁.nodes = d₂.nodes) (he : d₁.entry_node = d₂.entry_node)
    (hk : alKeys d₁.variables = alKeys d₂.variables)
    (hwf₁ : WFAssocMap d₁.variables)
    (hlen : d₁.variables.length ≤ values.length) :
    (assign_vars d₁ values).2 = (assign_vars d₂ values).2 := by
  have hlen12 : d₁.variables.length = d₂.variables.length := by
    have h1 : (alKeys d₁.variables).length = (alKeys d₂.variables).length := by rw [hk]
    unfold alKeys at h1
    rw [List.length_map, List.length_map] at h1
    exact h1
  have hwf₂ : WFAssocMap d₂.variables := by
    unfold WFAssocMap at hwf₁ ⊢
    rw [← hk]
    exact hwf₁
  have hlen₂ : d₂.variables.length ≤ values.length := hlen12 ▸ hlen
  obtain ⟨o₁, v₁, he₁, hk₁, _, _, hl₁⟩ := assign_vars_ok hwf₁ hlen
  obtain ⟨o₂, v₂, he₂, hk₂, _, _, hl₂⟩ := assign_vars_ok hwf₂ hlen₂
  have hks : sortedVarKeys d₂.variables = sortedVarKeys d₁.variables := by
    unfold sortedVarKeys
    rw [hk]
  have hperm : List.Perm (sortedVarKeys d₁.variables) (alKeys d₁.variables) :=
    List.perm_insertionSort _ _
  have hl₂' : assignLoop d₂.variables (values.take d₁.variables.length)
      (sortedVarKeys d₁.variables) 0 = Except.ok v₂ := by
    rw [hks, ← hlen12] at hl₂
    exact hl₂
  have hveq : v₁ = v₂ := by
    apply assignLoop_state_eq hk hwf₁ (hperm.nodup_iff.mpr hwf₁) _ hl₁ hl₂'
    intro k hkm
    exact hperm.mem_iff.mpr hkm
  rw [he₁, he₂, hveq]
  cases d₁
  cases d₂
  simp at hn he ⊢
  exact ⟨hn, he⟩

/-- The truth-table loop: each enumerated pattern contributes one result,
equal to what eval returns after assigning that pattern's bits. -/
theorem ttLoop_spec : ∀ (is : List Nat) (d : BinaryDecisionDiagram) (acc : List Bool)
    (fuel : Nat) (res : List Bool) (dfin : BinaryDecisionDiagram),
    WFAssocMap d.variables →
    ttLoop fuel d is acc = some (Except.ok (res, dfin)) →
    ∃ tail : List Bool, res = acc ++ tail ∧ tail.length = is.length ∧
      ∀ (j i0 : Nat), is[j]? = some i0 → ∃ b, tail[j]? = some b ∧
        EvalResult ((assign_vars d (convert_bits_to_bools i0 d.variables.length)).2)
          (Except.ok b) := by
  intro is
  induction is with
  | nil =>
    intro d acc fuel res dfin hwf h
    rw [ttLoop] at h
    injection h with h'
    injection h' with h''
    injection h'' with ha hb
    refine ⟨[], by rw [← ha]; simp, rfl, ?_⟩
    intro j i0 hj
    simp at hj
  | cons i0 rest ih =>
    intro d acc fuel res dfin hwf h
    have hlen : d.variables.length ≤ (convert_bits_to_bools i0 d.variables.length).length := by
      rw [convert_bits_to_bools_length]
    obtain ⟨out0, vars', heq, hkeys, _, _, _⟩ := assign_vars_ok hwf hlen
    rw [ttLoop] at h
    rw [heq] at h
    dsimp only at h
    cases hev : evalFuel { d with «variables» := vars' } fuel with
    | none => rw [hev] at h; simp at h
    | some r =>
      rw [hev] at h
      cases r with
      | error e => simp at h
      | ok b =>
        dsimp only at h
        have hwf' : WFAssocMap ({ d with «variables» := vars' } : BinaryDecisionDiagram).variables := by
          unfold WFAssocMap
          dsimp only
          rw [hkeys]
          exact hwf
        obtain ⟨tail', hres, hlen', hidx⟩ := ih _ _ fuel res dfin hwf' h
        refine ⟨b :: tail', by rw [hres]; simp, by simp [hlen'], ?_⟩
        intro j i1 hj
        cases j with
        | zero =>
          have hii : i0 = i1 := by simpa using hj
          refine ⟨b, by simp, ?_⟩
          rw [← hii, heq]
          exact ⟨fuel, hev⟩
        | succ j' =>
          have hj' : rest[j']? = some i1 := by simpa using hj
          obtain ⟨b', hb', hev'⟩ := hidx j' i1 hj'
          refine ⟨b', by simpa using hb', ?_⟩
          have hlen1 : ({ d with «variables» := vars' } : BinaryDecisionDiagram).variables.length
              = d.variables.length := by
            have h1 : (alKeys vars').length = (alKeys d.variables).length := by rw [hkeys]
            unfold alKeys at h1
            rw [List.length_map, List.length_map] at h1
            exact h1
          rw [hlen1] at hev'
          have hcong : (assign_vars { d with «variables» := vars' }
              (convert_bits_to_bools i1 d.variables.length)).2
              = (assign_vars d (convert_bits_to_bools i1 d.variables.length)).2 := by
            have hn' : ({ d with «variables» := vars' } : BinaryDecisionDiagram).nodes
                = d.nodes := rfl
            have he' : ({ d with «variables» := vars' } : BinaryDecisionDiagram).entry_node
                = d.entry_node := rfl
            have hk' : alKeys ({ d with «variables» := vars' } : BinaryDecisionDiagram).variables
                = alKeys d.variables := hkeys
            apply assign_state_congr hn' he' hk' hwf'
            rw [convert_bits_to_bools_length, hlen1]
          rw [hcong] at hev'
          exact hev'

/-! ## Claim C5: truth_table -/

/-- C5 (amended): `truth_table()` fails at once with an `EvaluationError`
when the variable count strictly exceeds `usize::BITS`; when it is strictly
below `usize::BITS`, a successful run returns exactly `2^n` booleans, the
one at index `i` being the result of `eval()` after assigning the bits of
`i` least-significant-bit first.  (At exactly `usize::BITS` variables the
shift `1usize << n` overflows — a panic under debug overflow checks — see
the counterexample.) -/
theorem claim_C5_truth_table (d : BinaryDecisionDiagram) (hwf : WFAssocMap d.variables) :
    (usizeBits < d.variables.length →
      truthTableFuel d 0 = some (Except.error (FlowError.EvaluationError ("Too many variables")))) ∧
    (d.variables.length < usizeBits →
      ∀ (fuel : Nat) (res : List Bool) (dfin : BinaryDecisionDiagram),
      truthTableFuel d fuel = some (Except.ok (res, dfin)) →
      res.length = 2 ^ d.variables.length ∧
      ∀ i : Nat, i < 2 ^ d.variables.length → ∃ b, res[i]? = some b ∧
        EvalResult ((assign_vars d (convert_bits_to_bools i d.variables.length)).2)
          (Except.ok b)) := by
  constructor
  · intro hgt
    unfold truthTableFuel
    rw [if_pos hgt]
  · intro hlt fuel res dfin h
    unfold truthTableFuel at h
    rw [if_neg (by omega), if_neg (by omega)] at h
    obtain ⟨tail, hres, hlen, hidx⟩ := ttLoop_spec _ d [] fuel res dfin hwf h
    have hres' : res = tail := by simpa using hres
    constructor
    · rw [hres', hlen, List.length_range]
    · intro i hi
      obtain ⟨b, hb, hev⟩ := hidx i i (List.getElem?_range hi)
      exact ⟨b, by rw [hres']; exact hb, hev⟩

/-- C5, counterexample diagram: exactly `usize::BITS` = 64 variables. -/
def c5xD : BinaryDecisionDiagram :=
  ⟨(List.range 64).map (fun i => (i, (none : Variable))),
   [(0, BinaryNode.Terminal true)], 0⟩

/-- C5 fails as stated at the boundary: with exactly 64 variables the guard
(`len > usize::BITS`) does not fire, yet the code does not enumerate `2^64`
patterns either — `1usize << 64` overflows, a panic under Rust's debug
overflow checks, so no `Ok` result (of any length) is produced. -/
theorem claim_C5_counterexample :
    c5xD.variables.length = 64 ∧
    ¬ usizeBits < c5xD.variables.length ∧
    truthTableFuel c5xD 0 = some (Except.error (FlowError.Panicked
      ("attempt to shift left with overflow"))) :=
  ⟨rfl, by decide, rfl⟩

/-- C5 witness diagram: one variable. -/
def c5wD : BinaryDecisionDiagram :=
  ⟨[(0, none)],
   [(0, BinaryNode.Decision ⟨0, (1, 2)⟩),
    (1, BinaryNode.Terminal false),
    (2, BinaryNode.Terminal true)], 0⟩

/-- C5 witness diagram for the over-width guard: 65 variables. -/
def c5bD : BinaryDecisionDiagram :=
  ⟨(List.range 65).map (fun i => (i, (none : Variable))),
   [(0, BinaryNode.Terminal true)], 0⟩

theorem claim_C5_truth_table_witness :
    truthTableFuel c5bD 0 = some (Except.error (FlowError.EvaluationError
      ("Too many variables"))) ∧
    ([false, true] : List Bool).length = 2 ^ c5wD.variables.length ∧
    (∃ b, ([false, true] : List Bool)[1]? = some b ∧
      EvalResult ((assign_vars c5wD (convert_bits_to_bools 1 c5wD.variables.length)).2)
        (Except.ok b)) := by
  have h1 := (claim_C5_truth_table c5bD (by decide)).1 (by decide)
  have h2 := (claim_C5_truth_table c5wD (by decide)).2 (by decide) 2 [false, true]
    ⟨[(0, some true)],
     [(0, BinaryNode.Decision ⟨0, (1, 2)⟩),
      (1, BinaryNode.Terminal false),
      (2, BinaryNode.Terminal true)], 0⟩ rfl
  exact ⟨h1, h2.1.symm, h2.2 1 (by decide)⟩

/-! ## Round-trip machinery (C1): digits, tokens, lines -/

theorem natToChars_ne_nil (n : Nat) : natToChars n ≠ [] := by
  unfold natToChars
  by_cases h : n = 0
  · rw [if_pos h]
    simp
  · rw [if_neg h]
    simp
    exact Nat.digits_ne_nil_iff_ne_zero.mpr h

theorem natToChars_bounds (n : Nat) : ∀ c ∈ natToChars n, 48 ≤ c.toNat ∧ c.toNat ≤ 57 := by
  unfold natToChars
  by_cases h : n = 0
  · rw [if_pos h]
    intro c hc
    simp at hc
    rw [hc]
    decide
  · rw [if_neg h]
    intro c hc
    simp at hc
    obtain ⟨d, hd, hcd⟩ := hc
    have hlt : d < 10 := Nat.digits_lt_base (by norm_num) hd
    rw [← hcd]
    interval_cases d <;> decide

theorem digit_char_not_ws {c : Char} (h : 48 ≤ c.toNat ∧ c.toNat ≤ 57) :
    isWsChar c = false := by
  unfold isWsChar
  have h1 : c.toNat ≠ 32 := by omega
  have h2 : c.toNat ≠ 9 := by omega
  have h3 : c.toNat ≠ 10 := by omega
  have h4 : c.toNat ≠ 12 := by omega
  have h5 : c.toNat ≠ 13 := by omega
  simp [h1, h2, h3, h4, h5]

theorem digit_char_ne_nl {c : Char} (h : 48 ≤ c.toNat ∧ c.toNat ≤ 57) : c ≠ '\n' := by
  intro he
  rw [he] at h
  revert h
  decide

theorem digit_char_ne_cr {c : Char} (h : 48 ≤ c.toNat ∧ c.toNat ≤ 57) : c ≠ '\r' := by
  intro he
  rw [he] at h
  revert h
  decide

theorem digit_char_ne_plus {c : Char} (h : 48 ≤ c.toNat ∧ c.toNat ≤ 57) : c ≠ '+' := by
  intro he
  rw [he] at h
  revert h
  decide

theorem digit_char_ne_minus {c : Char} (h : 48 ≤ c.toNat ∧ c.toNat ≤ 57) : c ≠ '-' := by
  intro he
  rw [he] at h
  revert h
  decide

theorem digit_char_isDigit {c : Char} (h : 48 ≤ c.toNat ∧ c.toNat ≤ 57) :
    isDigitChar c = true := by
  unfold isDigitChar
  simp
  omega

theorem foldr_mul_add (L : List Nat) :
    L.foldr (fun d a => a * 10 + d) 0 = Nat.ofDigits 10 L := by
  induction L with
  | nil => simp [Nat.ofDigits]
  | cons d L ih =>
    rw [List.foldr_cons, ih, Nat.ofDigits_cons]
    ring

theorem digitsVal_natToChars (n : Nat) : digitsVal (natToChars n) = n := by
  unfold natToChars
  by_cases h : n = 0
  · rw [if_pos h, h]
    rfl
  · rw [if_neg h]
    unfold digitsVal
    rw [List.foldl_map]
    have hstep : ∀ (a : Nat), ∀ d ∈ (Nat.digits 10 n).reverse,
        a * 10 + ((Char.ofNat (48 + d)).toNat - 48) = a * 10 + d := by
      intro a d hd
      rw [List.mem_reverse] at hd
      have hlt : d < 10 := Nat.digits_lt_base (by norm_num) hd
      have : (Char.ofNat (48 + d)).toNat = 48 + d := by
        interval_cases d <;> decide
      rw [this]
      omega
    have hfe := List.foldl_ext (fun (a : Nat) (d : Nat) => a * 10 + ((Char.ofNat (48 + d)).toNat - 48))
      (fun a d => a * 10 + d) 0 hstep
    rw [hfe, List.foldl_reverse]
    show (Nat.digits 10 n).foldr (fun d a => a * 10 + d) 0 = n
    rw [foldr_mul_add]
    exact Nat.ofDigits_digits 10 n

theorem parseUsize_natToChars {n : Nat} (h : n ≤ usizeMax) :
    parseUsize (natToChars n) = some n := by
  have hne := natToChars_ne_nil n
  have hb := natToChars_bounds n
  have hhead : (natToChars n).head? ≠ some '+' := by
    cases hc : natToChars n with
    | nil => exact absurd hc hne
    | cons c rest =>
      simp
      intro hplus
      have := hb c (by rw [hc]; exact List.mem_cons_self _ _)
      exact digit_char_ne_plus this hplus
  unfold parseUsize
  rw [if_neg hhead]
  rw [if_neg hne]
  have hall : (natToChars n).all isDigitChar = true := by
    rw [List.all_eq_true]
    intro c hc
    exact digit_char_isDigit (hb c hc)
  rw [if_pos hall]
  dsimp only
  rw [digitsVal_natToChars]
  rw [if_pos h]

theorem parseIsize_natToChars {n : Nat} (h : (n : Int) ≤ isizeMax) :
    parseIsize (natToChars n) = some (n : Int) := by
  have hne := natToChars_ne_nil n
  have hb := natToChars_bounds n
  have hheadm : (natToChars n).head? ≠ some '-' := by
    cases hc : natToChars n with
    | nil => exact absurd hc hne
    | cons c rest =>
      simp
      intro hm
      have := hb c (by rw [hc]; exact List.mem_cons_self _ _)
      exact digit_char_ne_minus this hm
  have hheadp : (natToChars n).head? ≠ some '+' := by
    cases hc : natToChars n with
    | nil => exact absurd hc hne
    | cons c rest =>
      simp
      intro hm
      have := hb c (by rw [hc]; exact List.mem_cons_self _ _)
      exact digit_char_ne_plus this hm
  unfold parseIsize
  rw [if_neg hheadm, if_neg hheadp, if_neg hne]
  have hall : (natToChars n).all isDigitChar = true := by
    rw [List.all_eq_true]
    intro c hc
    exact digit_char_isDigit (hb c hc)
  rw [if_pos hall]
  dsimp only
  rw [digitsVal_natToChars]
  rw [if_pos h]

theorem parseUsize_le {cs : List Char} {v : Nat} (h : parseUsize cs = some v) :
    v ≤ usizeMax := by
  unfold parseUsize at h
  by_cases h1 : (if cs.head? = some '+' then cs.tail else cs) = []
  · rw [if_pos h1] at h
    simp at h
  · rw [if_neg h1] at h
    by_cases h2 : (if cs.head? = some '+' then cs.tail else cs).all isDigitChar
    · rw [if_pos h2] at h
      dsimp only at h
      by_cases h3 : digitsVal (if cs.head? = some '+' then cs.tail else cs) ≤ usizeMax
      · rw [if_pos h3] at h
        injection h with h'
        rw [← h']
        exact h3
      · rw [if_neg h3] at h
        simp at h
    · rw [if_neg h2] at h
      simp at h

theorem parseIsize_bounds {cs : List Char} {v : Int} (h : parseIsize cs = some v) :
    isizeMin ≤ v ∧ v ≤ isizeMax := by
  unfold parseIsize at h
  by_cases hm : cs.head? = some '-'
  · rw [if_pos hm] at h
    by_cases h1 : cs.tail = []
    · rw [if_pos h1] at h
      simp at h
    · rw [if_neg h1] at h
      by_cases h2 : cs.tail.all isDigitChar
      · rw [if_pos h2] at h
        by_cases h3 : (digitsVal cs.tail : Int) ≤ 2 ^ 63
        · rw [if_pos h3] at h
          injection h with h'
          rw [← h']
          unfold isizeMin isizeMax
          constructor
          · omega
          · have : (0 : Int) ≤ (digitsVal cs.tail : Int) := Int.natCast_nonneg _
            omega
        · rw [if_neg h3] at h
          simp at h
      · rw [if_neg h2] at h
        simp at h
  · rw [if_neg hm] at h
    by_cases h1 : (if cs.head? = some '+' then cs.tail else cs) = []
    · rw [if_pos h1] at h
      simp at h
    · rw [if_neg h1] at h
      by_cases h2 : (if cs.head? = some '+' then cs.tail else cs).all isDigitChar
      · rw [if_pos h2] at h
        dsimp only at h
        by_cases h3 : (digitsVal (if cs.head? = some '+' then cs.tail else cs) : Int) ≤ isizeMax
        · rw [if_pos h3] at h
          injection h with h'
          rw [← h']
          refine ⟨?_, h3⟩
          have : (0 : Int) ≤ (digitsVal (if cs.head? = some '+' then cs.tail else cs) : Int) :=
            Int.natCast_nonneg _
          unfold isizeMin
          omega
        · rw [if_neg h3] at h
          simp at h
      · rw [if_neg h2] at h
        simp at h

/-- Everything a decoded line tuple's fields satisfy. -/
def BoundedTuple (t : LineTuple) : Prop :=
  t.node_num ≤ usizeMax ∧ t.var_id ≤ usizeMax ∧
  isizeMin ≤ t.node_if_true ∧ t.node_if_true ≤ isizeMax ∧
  isizeMin ≤ t.node_if_false ∧ t.node_if_false ≤ isizeMax

theorem decodeLine_bounds {l : List Char} {t : LineTuple}
    (h : decodeLine l = Except.ok t) : BoundedTuple t := by
  unfold decodeLine at h
  dsimp only at h
  cases h0 : (splitWs l)[0]? with
  | none => rw [h0] at h; simp at h
  | some t0 =>
  rw [h0] at h
  dsimp only at h
  cases h1 : parseUsize t0 with
  | none => rw [h1] at h; simp at h
  | some node_num =>
  rw [h1] at h
  dsimp only at h
  cases h2 : (splitWs l)[1]? with
  | none => rw [h2] at h; simp at h
  | some t1 =>
  rw [h2] at h
  dsimp only at h
  cases h3 : parseIsize t1 with
  | none => rw [h3] at h; simp at h
  | some tt =>
  rw [h3] at h
  dsimp only at h
  cases h4 : (splitWs l)[2]? with
  | none => rw [h4] at h; simp at h
  | some t2 =>
  rw [h4] at h
  dsimp only at h
  cases h5 : parseIsize t2 with
  | none => rw [h5] at h; simp at h
  | some ff =>
  rw [h5] at h
  dsimp only at h
  cases h6 : (splitWs l)[3]? with
  | none => rw [h6] at h; simp at h
  | some t3 =>
  rw [h6] at h
  dsimp only at h
  cases h7 : parseUsize t3 with
  | none => rw [h7] at h; simp at h
  | some var_id =>
  rw [h7] at h
  dsimp only at h
  injection h with h'
  rw [← h']
  obtain ⟨ha, hb⟩ := parseIsize_bounds h3
  obtain ⟨hc, hd⟩ := parseIsize_bounds h5
  exact ⟨parseUsize_le h1, parseUsize_le h7, ha, hb, hc, hd⟩

theorem decodeAll_bounds : ∀ (lines : List (List Char)) (ts : List LineTuple),
    decodeAll lines = Except.ok ts → ∀ t ∈ ts, BoundedTuple t := by
  intro lines
  induction lines with
  | nil =>
    intro ts h t ht
    simp [decodeAll] at h
    rw [h] at ht
    simp at ht
  | cons l rest ih =>
    intro ts h t ht
    simp only [decodeAll] at h
    cases hd : decodeLine l with
    | error e => rw [hd] at h; simp at h
    | ok t0 =>
      rw [hd] at h
      cases hr : decodeAll rest with
      | error e => rw [hr] at h; simp at h
      | ok ts' =>
        rw [hr] at h
        dsimp only at h
        injection h with h'
        rw [← h'] at ht
        rcases List.mem_cons.mp ht with h1 | h1
        · rw [h1]
          exact decodeLine_bounds hd
        · exact ih ts' hr t h1

/-! ### Whitespace-splitting of rendered tokens -/

/-- Join tokens with single spaces. -/
def joinTok : List (List Char) → List Char
  | [] => []
  | [t] => t
  | t :: t2 :: rest => t ++ ' ' :: joinTok (t2 :: rest)

theorem splitWsAux_token (tok : List Char) (h : ∀ c ∈ tok, isWsChar c = false) :
    ∀ (r acc : List Char), splitWsAux (tok ++ r) acc = splitWsAux r (tok.reverse ++ acc) := by
  induction tok with
  | nil => intro r acc; simp
  | cons c tok' ih =>
    intro r acc
    rw [List.cons_append, splitWsAux]
    rw [if_neg (by rw [h c (List.mem_cons_self _ _)]; simp)]
    rw [ih (fun c' hc' => h c' (List.mem_cons_of_mem _ hc')) r (c :: acc)]
    rw [List.reverse_cons, List.append_assoc]
    rfl

theorem splitWsAux_space (r acc : List Char) (hacc : acc ≠ []) :
    splitWsAux (' ' :: r) acc = acc.reverse :: splitWsAux r [] := by
  rw [splitWsAux]
  rw [if_pos (show isWsChar ' ' = true from rfl)]
  rw [if_neg hacc]

theorem splitWsAux_nil (acc : List Char) (hacc : acc ≠ []) :
    splitWsAux [] acc = [acc.reverse] := by
  rw [splitWsAux, if_neg hacc]

theorem splitWs_joinTok : ∀ toks : List (List Char),
    (∀ t ∈ toks, t ≠ []) → (∀ t ∈ toks, ∀ c ∈ t, isWsChar c = false) →
    splitWs (joinTok toks) = toks := by
  intro toks
  induction toks with
  | nil => intro _ _; rfl
  | cons t rest ih =>
    intro hne hws
    have htne : t.reverse ≠ [] := by
      intro hc
      exact hne t (List.mem_cons_self _ _) (List.reverse_eq_nil_iff.mp hc)
    cases rest with
    | nil =>
      unfold splitWs
      rw [joinTok]
      have h1 := splitWsAux_token t (hws t (List.mem_cons_self _ _)) [] []
      rw [List.append_nil, List.append_nil] at h1
      rw [h1, splitWsAux_nil t.reverse htne, List.reverse_reverse]
    | cons t2 rest2 =>
      unfold splitWs
      rw [joinTok]
      rw [splitWsAux_token t (hws t (List.mem_cons_self _ _))]
      rw [List.append_nil]
      rw [splitWsAux_space (joinTok (t2 :: rest2)) t.reverse htne]
      rw [List.reverse_reverse]
      have ih' := ih (fun t' ht' => hne t' (List.mem_cons_of_mem _ ht'))
        (fun t' ht' => hws t' (List.mem_cons_of_mem _ ht'))
      unfold splitWs at ih'
      rw [ih']

/-! ### Line splitting of the rendered text -/

theorem splitNl_no_nl {l : List Char} (h : '\n' ∉ l) : splitNl l = [l] := by
  induction l with
  | nil => rfl
  | cons c rest ih =>
    rw [splitNl, if_neg (fun hc => h (List.mem_cons.mpr (Or.inl hc.symm)))]
    rw [ih (fun hm => h (List.mem_cons_of_mem _ hm))]

theorem splitNl_append {l0 : List Char} (r : List Char) (h : '\n' ∉ l0) :
    splitNl (l0 ++ '\n' :: r) = l0 :: splitNl r := by
  induction l0 with
  | nil =>
    rw [List.nil_append, splitNl, if_pos rfl]
  | cons c rest ih =>
    rw [List.cons_append, splitNl, if_neg (fun hc => h (List.mem_cons.mpr (Or.inl hc.symm)))]
    rw [ih (fun hm => h (List.mem_cons_of_mem _ hm))]

theorem splitNl_flatten : ∀ (ls : List (List Char)) (l0 : List Char), '\n' ∉ l0 →
    (∀ l ∈ ls, '\n' ∉ l) →
    splitNl (l0 ++ (ls.map (fun l => '\n' :: l)).flatten) = l0 :: ls := by
  intro ls
  induction ls with
  | nil =>
    intro l0 h0 _
    rw [List.map_nil, List.flatten_nil, List.append_nil]
    exact splitNl_no_nl h0
  | cons l rest ih =>
    intro l0 h0 hls
    rw [List.map_cons, List.flatten_cons, List.cons_append]
    rw [show l0 ++ ('\n' :: (l ++ (rest.map (fun l => '\n' :: l)).flatten))
        = l0 ++ '\n' :: (l ++ (rest.map (fun l => '\n' :: l)).flatten) from rfl]
    rw [splitNl_append _ h0]
    rw [ih l (hls l (List.mem_cons_self _ _)) (fun l' hl' => hls l' (List.mem_cons_of_mem _ hl'))]

theorem stripTrailCr_no_cr {l : List Char} (h : '\r' ∉ l) : stripTrailCr l = l := by
  unfold stripTrailCr
  cases hlast : l.getLast? with
  | none => rfl
  | some c =>
    by_cases hc : c = '\r'
    · exfalso
      apply h
      obtain ⟨hne, hcl⟩ := List.mem_getLast?_eq_getLast (show c ∈ l.getLast? by rw [hlast]; rfl)
      rw [← hc, hcl]
      exact List.getLast_mem hne
    · split
      · next heqn =>
        exfalso
        injection heqn with hh
        exact hc hh
      · rfl

theorem linesOf_render (l0 : List Char) (ls : List (List Char))
    (h0nl : '\n' ∉ l0) (h0ne : l0 ≠ []) (h0cr : '\r' ∉ l0)
    (hnl : ∀ l ∈ ls, '\n' ∉ l) (hne : ∀ l ∈ ls, l ≠ []) (hcr : ∀ l ∈ ls, '\r' ∉ l) :
    linesOf (l0 ++ (ls.map (fun l => '\n' :: l)).flatten) = l0 :: ls := by
  unfold linesOf
  rw [if_neg (by
    intro hc
    exact h0ne (List.append_eq_nil.mp hc).1)]
  rw [splitNl_flatten ls l0 h0nl hnl]
  dsimp only
  rw [List.getLast?_eq_getLast_of_ne_nil (List.cons_ne_nil l0 ls)]
  dsimp only
  have hlastmem : (l0 :: ls).getLast (List.cons_ne_nil l0 ls) ∈ l0 :: ls :=
    List.getLast_mem _
  have hlastne : (l0 :: ls).getLast (List.cons_ne_nil l0 ls) ≠ [] := by
    rcases List.mem_cons.mp hlastmem with h1 | h1
    · rw [h1]; exact h0ne
    · exact hne _ h1
  rw [if_neg hlastne]
  have hfront : (l0 :: ls).dropLast.map stripTrailCr = List.map id (l0 :: ls).dropLast := by
    apply List.map_congr_left
    intro l hl
    have hlm : l ∈ l0 :: ls := List.dropLast_subset _ hl
    show stripTrailCr l = l
    apply stripTrailCr_no_cr
    rcases List.mem_cons.mp hlm with h1 | h1
    · rw [h1]; exact h0cr
    · exact hcr _ h1
  rw [hfront, List.map_id]
  exact List.dropLast_append_getLast _

/-! ### Decoding a rendered node line -/

/-- The tuple a rendered node-map entry decodes back to. -/
def tupleOfEntry (p : Nat × BinaryNode) : LineTuple :=
  match p.2 with
  | BinaryNode.Terminal b => ⟨p.1, -1, -1, if b then 1 else 0⟩
  | BinaryNode.Decision dn =>
    ⟨p.1, (dn.decision_map.2 : Int), (dn.decision_map.1 : Int), dn.variable_id⟩

/-- Bounds under which a node renders to a reparsable line. -/
def nodeSafe : BinaryNode → Prop
  | BinaryNode.Terminal _ => True
  | BinaryNode.Decision dn =>
    dn.variable_id ≤ usizeMax ∧
    (dn.decision_map.1 : Int) ≤ isizeMax ∧ (dn.decision_map.2 : Int) ≤ isizeMax

theorem decodeLine_toks {l t0 t1 t2 t3 : List Char} {a d : Nat} {b c : Int}
    (hsplit : splitWs l = [t0, t1, t2, t3])
    (h0 : parseUsize t0 = some a) (h1 : parseIsize t1 = some b)
    (h2 : parseIsize t2 = some c) (h3 : parseUsize t3 = some d) :
    decodeLine l = Except.ok ⟨a, b, c, d⟩ := by
  unfold decodeLine
  dsimp only
  rw [hsplit]
  rw [show ([t0, t1, t2, t3] : List (List Char))[0]? = some t0 from rfl]
  dsimp only
  rw [h0]
  dsimp only
  rw [show ([t0, t1, t2, t3] : List (List Char))[1]? = some t1 from rfl]
  dsimp only
  rw [h1]
  dsimp only
  rw [show ([t0, t1, t2, t3] : List (List Char))[2]? = some t2 from rfl]
  dsimp only
  rw [h2]
  dsimp only
  rw [show ([t0, t1, t2, t3] : List (List Char))[3]? = some t3 from rfl]
  dsimp only
  rw [h3]

theorem renderNode_terminal_true : renderNode (BinaryNode.Terminal true)
    = joinTok [['-', '1'], ['-', '1'], ['1']] := rfl

theorem renderNode_terminal_false : renderNode (BinaryNode.Terminal false)
    = joinTok [['-', '1'], ['-', '1'], ['0']] := rfl

theorem renderNode_decision (dn : DecisionNode) : renderNode (BinaryNode.Decision dn)
    = joinTok [natToChars dn.decision_map.2, natToChars dn.decision_map.1,
      natToChars dn.variable_id] := rfl

theorem natToChars_ws_free (n : Nat) : ∀ c ∈ natToChars n, isWsChar c = false :=
  fun c hc => digit_char_not_ws (natToChars_bounds n c hc)

theorem decodeLine_render (k : Nat) (node : BinaryNode) (hk : k ≤ usizeMax)
    (hsafe : nodeSafe node) :
    decodeLine (natToChars k ++ ' ' :: renderNode node) = Except.ok (tupleOfEntry (k, node)) := by
  cases node with
  | Terminal b =>
    cases b with
    | true =>
      have hline : natToChars k ++ ' ' :: renderNode (BinaryNode.Terminal true)
          = joinTok [natToChars k, ['-', '1'], ['-', '1'], ['1']] := rfl
      rw [hline]
      have hsplit := splitWs_joinTok [natToChars k, ['-', '1'], ['-', '1'], ['1']]
        (by
          intro t ht
          simp only [List.mem_cons, List.not_mem_nil, or_false] at ht
          rcases ht with h | h | h | h <;> rw [h]
          · exact natToChars_ne_nil k
          · decide
          · decide
          · decide)
        (by
          intro t ht c hc
          simp only [List.mem_cons, List.not_mem_nil, or_false] at ht
          rcases ht with h | h | h | h <;> rw [h] at hc
          · exact natToChars_ws_free k c hc
          · exact (by decide : ∀ c ∈ ['-', '1'], isWsChar c = false) c hc
          · exact (by decide : ∀ c ∈ ['-', '1'], isWsChar c = false) c hc
          · exact (by decide : ∀ c ∈ ['1'], isWsChar c = false) c hc)
      exact decodeLine_toks hsplit (parseUsize_natToChars hk) rfl rfl rfl
    | false =>
      have hline : natToChars k ++ ' ' :: renderNode (BinaryNode.Terminal false)
          = joinTok [natToChars k, ['-', '1'], ['-', '1'], ['0']] := rfl
      rw [hline]
      have hsplit := splitWs_joinTok [natToChars k, ['-', '1'], ['-', '1'], ['0']]
        (by
          intro t ht
          simp only [List.mem_cons, List.not_mem_nil, or_false] at ht
          rcases ht with h | h | h | h <;> rw [h]
          · exact natToChars_ne_nil k
          · decide
          · decide
          · decide)
        (by
          intro t ht c hc
          simp only [List.mem_cons, List.not_mem_nil, or_false] at ht
          rcases ht with h | h | h | h <;> rw [h] at hc
          · exact natToChars_ws_free k c hc
          · exact (by decide : ∀ c ∈ ['-', '1'], isWsChar c = false) c hc
          · exact (by decide : ∀ c ∈ ['-', '1'], isWsChar c = false) c hc
          · exact (by decide : ∀ c ∈ ['0'], isWsChar c = false) c hc)
      exact decodeLine_toks hsplit (parseUsize_natToChars hk) rfl rfl rfl
  | Decision dn =>
    obtain ⟨hv, h1, h2⟩ := hsafe
    have hline : natToChars k ++ ' ' :: renderNode (BinaryNode.Decision dn)
        = joinTok [natToChars k, natToChars dn.decision_map.2,
          natToChars dn.decision_map.1, natToChars dn.variable_id] := rfl
    rw [hline]
    have hsplit := splitWs_joinTok [natToChars k, natToChars dn.decision_map.2,
        natToChars dn.decision_map.1, natToChars dn.variable_id]
      (by
        intro t ht
        simp only [List.mem_cons, List.not_mem_nil, or_false] at ht
        rcases ht with h | h | h | h <;> rw [h] <;> exact natToChars_ne_nil _)
      (by
        intro t ht c hc
        simp only [List.mem_cons, List.not_mem_nil, or_false] at ht
        rcases ht with h | h | h | h <;> rw [h] at hc <;> exact natToChars_ws_free _ c hc)
    exact decodeLine_toks hsplit (parseUsize_natToChars hk)
      (parseIsize_natToChars h2) (parseIsize_natToChars h1)
      (parseUsize_natToChars hv)

/-! ### Rendered tuples versus original tuples -/

theorem intToUsize_natCast {n : Nat} (h : (n : Int) ≤ isizeMax) :
    intToUsize (n : Int) = n := by
  unfold intToUsize
  rw [Int.emod_eq_of_lt (Int.natCast_nonneg n) (by unfold isizeMax at h; omega)]
  exact Int.toNat_natCast n

theorem intToUsize_nonneg_le {i : Int} (h0 : 0 ≤ i) (h1 : i ≤ isizeMax) :
    (intToUsize i : Int) = i ∧ ((intToUsize i : Nat) : Int) ≤ isizeMax := by
  unfold intToUsize
  rw [Int.emod_eq_of_lt h0 (by unfold isizeMax at h1; omega)]
  rw [Int.toNat_of_nonneg h0]
  exact ⟨rfl, h1⟩

/-- The round-trip relation between an original tuple and the tuple its
rendered node decodes back to. -/
def TupRound (t : LineTuple) : Prop :=
  (isTerminalTuple t ∧ isTerminalTuple (tupleOfEntry (entryOf t)) ∧
    (tupleOfEntry (entryOf t)).node_num = t.node_num ∧
    nodeOf (tupleOfEntry (entryOf t)) = nodeOf t) ∨
  tupleOfEntry (entryOf t) = t

theorem tupleOfEntry_entryOf (t : LineTuple) (hb : BoundedTuple t)
    (hmix : isTerminalTuple t ∨ (0 ≤ t.node_if_true ∧ 0 ≤ t.node_if_false)) :
    TupRound t := by
  by_cases hT : isTerminalTuple t
  · left
    have hnode : nodeOf t = BinaryNode.Terminal (t.var_id = 1) := by
      unfold nodeOf
      rw [if_pos hT]
    have hent : entryOf t = (t.node_num, BinaryNode.Terminal (t.var_id = 1)) := by
      unfold entryOf
      rw [hnode]
    refine ⟨hT, ?_, ?_, ?_⟩
    · rw [hent]
      exact ⟨show (-1 : Int) < 0 by norm_num, show (-1 : Int) < 0 by norm_num⟩
    · rw [hent]
      rfl
    · by_cases hv : t.var_id = 1
      · rw [hent, hnode, hv]
        rfl
      · rw [hent, hnode]
        have hbv : decide (t.var_id = 1) = false := by simp [hv]
        rw [hbv]
        rfl
  · right
    rcases hmix with hmix | ⟨hpt, hpf⟩
    · exact absurd hmix hT
    have htle : t.node_if_true ≤ isizeMax := hb.2.2.2.1
    have hfle : t.node_if_false ≤ isizeMax := hb.2.2.2.2.2
    have hnode : nodeOf t = BinaryNode.Decision (DecisionNode.new_node
        (intToUsize t.node_if_false) (intToUsize t.node_if_true) t.var_id) := by
      unfold nodeOf
      rw [if_neg hT]
    have hent : entryOf t = (t.node_num, nodeOf t) := rfl
    rw [hent, hnode]
    unfold tupleOfEntry
    dsimp only [DecisionNode.new_node]
    have h1 := (intToUsize_nonneg_le hpt htle).1
    have h2 := (intToUsize_nonneg_le hpf hfle).1
    cases t with
    | mk nn tt ff vv =>
      dsimp only at h1 h2 ⊢
      rw [h1, h2]

theorem varsFold_tupRound (ts : List LineTuple) (hpt : ∀ t ∈ ts, TupRound t) :
    ∀ vs : AssocMap Variable,
    (ts.map (fun t => tupleOfEntry (entryOf t))).foldl varsStep vs = ts.foldl varsStep vs := by
  induction ts with
  | nil => intro vs; rfl
  | cons t rest ih =>
    intro vs
    rw [List.map_cons, List.foldl_cons, List.foldl_cons]
    have hstep : varsStep vs (tupleOfEntry (entryOf t)) = varsStep vs t := by
      rcases hpt t (List.mem_cons_self _ _) with ⟨h1, h2, _, _⟩ | heq
      · unfold varsStep
        rw [if_pos h1, if_pos h2]
      · rw [heq]
    rw [hstep]
    exact ih (fun t' ht' => hpt t' (List.mem_cons_of_mem _ ht')) _

theorem entryFold_tupRound (ts : List LineTuple) (hpt : ∀ t ∈ ts, TupRound t) :
    ∀ o : Option Nat,
    (ts.map (fun t => tupleOfEntry (entryOf t))).foldl entryStep o = ts.foldl entryStep o := by
  induction ts with
  | nil => intro o; rfl
  | cons t rest ih =>
    intro o
    rw [List.map_cons, List.foldl_cons, List.foldl_cons]
    have hstep : entryStep o (tupleOfEntry (entryOf t)) = entryStep o t := by
      rcases hpt t (List.mem_cons_self _ _) with ⟨h1, h2, _, _⟩ | heq
      · unfold entryStep
        rw [if_pos h1, if_pos h2]
      · rw [heq]
    rw [hstep]
    exact ih (fun t' ht' => hpt t' (List.mem_cons_of_mem _ ht')) _

theorem entryOf_tupRound {t : LineTuple} (h : TupRound t) :
    entryOf (tupleOfEntry (entryOf t)) = entryOf t := by
  rcases h with ⟨_, _, h3, h4⟩ | heq
  · apply Prod.ext
    · exact h3
    · exact h4
  · rw [heq]

theorem num_tupRound {t : LineTuple} (h : TupRound t) :
    (tupleOfEntry (entryOf t)).node_num = t.node_num := by
  rcases h with ⟨_, _, h3, _⟩ | heq
  · exact h3
  · rw [heq]

/-- Rendering every node-map entry and decoding the lines back gives exactly
the tuples of the entries. -/
theorem decodeAll_map_render : ∀ ns : AssocMap BinaryNode,
    (∀ p ∈ ns, p.1 ≤ usizeMax ∧ nodeSafe p.2) →
    decodeAll (ns.map (fun p => natToChars p.1 ++ ' ' :: renderNode p.2))
      = Except.ok (ns.map tupleOfEntry) := by
  intro ns
  induction ns with
  | nil => intro _; rfl
  | cons p rest ih =>
    intro h
    rw [List.map_cons, List.map_cons]
    rw [decodeAll]
    have hp := h p (List.mem_cons_self _ _)
    have hdl : decodeLine (natToChars p.1 ++ ' ' :: renderNode p.2)
        = Except.ok (tupleOfEntry (p.1, p.2)) := decodeLine_render p.1 p.2 hp.1 hp.2
    rw [hdl]
    rw [ih (fun q hq => h q (List.mem_cons_of_mem _ hq))]

/-! ### Character facts about the rendered text -/

theorem nl_not_mem_natToChars (n : Nat) : '\n' ∉ natToChars n := by
  intro hm
  have := natToChars_bounds n _ hm
  revert this
  decide

theorem cr_not_mem_natToChars (n : Nat) : '\r' ∉ natToChars n := by
  intro hm
  have := natToChars_bounds n _ hm
  revert this
  decide

theorem nl_not_mem_renderNode (node : BinaryNode) : '\n' ∉ renderNode node := by
  cases node with
  | Terminal b => cases b <;> decide
  | Decision dn =>
    rw [renderNode_decision]
    intro hm
    rw [joinTok, joinTok] at hm
    simp only [List.mem_append, List.mem_cons] at hm
    rcases hm with h | h | h
    · exact nl_not_mem_natToChars _ h
    · exact absurd h (by decide)
    · rcases h with h | h | h
      · exact nl_not_mem_natToChars _ h
      · exact absurd h (by decide)
      · exact nl_not_mem_natToChars _ h

theorem cr_not_mem_renderNode (node : BinaryNode) : '\r' ∉ renderNode node := by
  cases node with
  | Terminal b => cases b <;> decide
  | Decision dn =>
    rw [renderNode_decision]
    intro hm
    rw [joinTok, joinTok] at hm
    simp only [List.mem_append, List.mem_cons] at hm
    rcases hm with h | h | h
    · exact cr_not_mem_natToChars _ h
    · exact absurd h (by decide)
    · rcases h with h | h | h
      · exact cr_not_mem_natToChars _ h
      · exact absurd h (by decide)
      · exact cr_not_mem_natToChars _ h

theorem renderBDD_shape (d : BinaryDecisionDiagram) : renderBDD d =
    (("vars ").toList ++ natToChars d.variables.length) ++
    (((("nodes ").toList ++ natToChars d.nodes.length) ::
      d.nodes.map (fun p => natToChars p.1 ++ ' ' :: renderNode p.2)).map
        (fun l => '\n' :: l)).flatten := by
  unfold renderBDD
  rw [List.map_cons, List.flatten_cons]
  rw [List.map_map]
  simp [Function.comp_def, List.append_assoc]

theorem headerCounts_le {s : List Char} {a b : Nat}
    (h : headerCounts s = some (a, b)) : a ≤ usizeMax ∧ b ≤ usizeMax := by
  unfold headerCounts at h
  cases h0 : (linesOf s)[0]? with
  | none => rw [h0] at h; simp at h
  | some var_line =>
  rw [h0] at h
  dsimp only at h
  cases h1 : (linesOf s)[1]? with
  | none => rw [h1] at h; simp at h
  | some node_line =>
  rw [h1] at h
  dsimp only at h
  cases h2 : (splitWs var_line)[1]? with
  | none => rw [h2] at h; simp at h
  | some tv =>
  rw [h2] at h
  dsimp only at h
  cases h3 : parseUsize tv with
  | none => rw [h3] at h; simp at h
  | some num_vars =>
  rw [h3] at h
  dsimp only at h
  cases h4 : (splitWs node_line)[1]? with
  | none => rw [h4] at h; simp at h
  | some tn =>
  rw [h4] at h
  dsimp only at h
  cases h5 : parseUsize tn with
  | none => rw [h5] at h; simp at h
  | some num_nodes =>
  rw [h5] at h
  dsimp only at h
  injection h with h'
  injection h' with ha hb
  rw [← ha, ← hb]
  exact ⟨parseUsize_le h3, parseUsize_le h5⟩

/-- Building block: a successful parse assembled from its pieces. -/
theorem fromStr_build {s vline nline : List Char} {rest : List (List Char)}
    (hl : linesOf s = vline :: nline :: rest)
    {tv tn : List Char} (hv1 : (splitWs vline)[1]? = some tv)
    (hn1 : (splitWs nline)[1]? = some tn)
    {num_vars num_nodes : Nat} (hv2 : parseUsize tv = some num_vars)
    (hn2 : parseUsize tn = some num_nodes)
    {ts : List LineTuple} (hdec : decodeAll rest = Except.ok ts)
    (hcv : num_vars = (ts.foldl stepTuple ⟨[], [], none⟩).variables.length)
    (hcn : num_nodes = (ts.foldl stepTuple ⟨[], [], none⟩).nodes.length)
    (hT : hasTerminal true (ts.foldl stepTuple ⟨[], [], none⟩).nodes = true)
    (hF : hasTerminal false (ts.foldl stepTuple ⟨[], [], none⟩).nodes = true)
    {e : Nat} (he : (ts.foldl stepTuple ⟨[], [], none⟩).entry_node = some e) :
    fromStr s = Except.ok ⟨(ts.foldl stepTuple ⟨[], [], none⟩).variables,
      (ts.foldl stepTuple ⟨[], [], none⟩).nodes, e⟩ := by
  unfold fromStr
  rw [hl]
  rw [show (vline :: nline :: rest)[0]? = some vline from rfl]
  dsimp only
  rw [show (vline :: nline :: rest)[1]? = some nline from by simp]
  dsimp only
  rw [hv1]
  dsimp only
  rw [hv2]
  dsimp only
  rw [hn1]
  dsimp only
  rw [hn2]
  dsimp only
  rw [show (vline :: nline :: rest).drop 2 = rest from rfl]
  rw [parseLines_eq_decodeAll, hdec]
  dsimp only
  rw [if_neg (by
    rw [← hcv, ← hcn]
    simp)]
  rw [if_neg (not_not_intro ⟨hT, hF⟩)]
  rw [he]

/-! ## Claim C1: round trip through Display and from_str -/

def c1xSrc : List Char := ("vars 1\nnodes 2\n0 2 1 0\n0 -1 -1 1\n1 -1 -1 0").toList

/-- The diagram the C1 counterexample parses to. -/
def c1xD : BinaryDecisionDiagram :=
  ⟨[(0, none)], [(0, BinaryNode.Terminal true), (1, BinaryNode.Terminal false)], 0⟩

/-- C1 fails as stated: this input parses successfully, but rendering the
result and reparsing it fails with a ParseError, because the decision line
whose id was later overwritten by a terminal line contributed a variable to
the variable map that the rendered text (all terminal lines) no longer
declares. -/
theorem natToChars_digit {n : Nat} (h1 : 0 < n) (h2 : n < 10) :
    natToChars n = [Char.ofNat (48 + n)] := by
  unfold natToChars
  rw [if_neg (Nat.pos_iff_ne_zero.mp h1)]
  rw [Nat.digits_def' (by norm_num : 1 < 10) h1]
  rw [Nat.div_eq_of_lt h2, Nat.digits_zero, Nat.mod_eq_of_lt h2]
  rfl

theorem natToChars_one : natToChars 1 = ['1'] := by
  rw [natToChars_digit (by norm_num) (by norm_num)]

theorem natToChars_two : natToChars 2 = ['2'] := by
  rw [natToChars_digit (by norm_num) (by norm_num)]

theorem renderBDD_c1xD : renderBDD c1xD = ("vars 1\nnodes 2\n0 -1 -1 1\n1 -1 -1 0").toList := by
  unfold renderBDD
  rw [show c1xD.variables.length = 1 from rfl, show c1xD.nodes.length = 2 from rfl]
  rw [show c1xD.nodes = [(0, BinaryNode.Terminal true), (1, BinaryNode.Terminal false)] from rfl]
  simp only [List.map_cons, List.map_nil, List.flatten_cons, List.flatten_nil]
  rw [natToChars_one, natToChars_two, show natToChars 0 = ['0'] from rfl]
  decide

theorem claim_C1_counterexample :
    fromStr c1xSrc = Except.ok c1xD ∧
    fromStr (renderBDD c1xD) = Except.error (FlowError.ParseError
      ("Number of tokens does not match first lines")) := by
  refine ⟨rfl, ?_⟩
  rw [renderBDD_c1xD]
  rfl

/-- C1 (amended): for a diagram parsed from text whose node lines carry
pairwise-distinct node ids and never mix one negative with one non-negative
branch, rendering and reparsing succeeds and returns the identical diagram
(hence equal variable count, node count, and evaluation behaviour). -/
theorem claim_C1_roundtrip {s : List Char} {d : BinaryDecisionDiagram}
    (hp : fromStr s = Except.ok d)
    (hids : (nodeLineIds s).Nodup)
    (hmix : noMixedBranchLines s = true) :
    fromStr (renderBDD d) = Except.ok d := by
  rcases fromStr_ok_inversion hp with ⟨ts, hdec, hhc, hvars, hnodes, hent, hT, hF⟩
  have hb := decodeAll_bounds _ _ hdec
  have hmx := noMixed_tuples hdec hmix
  have hpt : ∀ t ∈ ts, TupRound t := fun t ht => tupleOfEntry_entryOf t (hb t ht) (hmx t ht)
  have hidts : (idsOfTuples ts).Nodup := by
    rw [← nodeLineIds_eq_ids hdec]
    exact hids
  rcases headerCounts_le hhc with ⟨hA, hB⟩
  have hnodes' : d.nodes = ts.map entryOf := by
    rw [hnodes, foldl_stepTuple_nodes]
    rw [nodesFold_eq_append ts _ hidts (by intro t _; simp [alKeys])]
    show ([] : AssocMap BinaryNode) ++ ts.map entryOf = ts.map entryOf
    rw [List.nil_append]
  have hvars' : d.variables = ts.foldl varsStep [] := by
    rw [hvars, foldl_stepTuple_variables]
  have hent' : ts.foldl entryStep none = some d.entry_node := by
    have h := foldl_stepTuple_entry ts ⟨[], [], none⟩
    rw [h] at hent
    exact hent
  have hsafe : ∀ p ∈ d.nodes, p.1 ≤ usizeMax ∧ nodeSafe p.2 := by
    intro p hpm
    rw [hnodes'] at hpm
    rcases List.mem_map.mp hpm with ⟨t, ht, hte⟩
    have hbt := hb t ht
    rw [← hte]
    constructor
    · exact hbt.1
    · show nodeSafe (nodeOf t)
      unfold nodeOf
      by_cases hTt : isTerminalTuple t
      · rw [if_pos hTt]
        trivial
      · rw [if_neg hTt]
        rcases hmx t ht with h1 | ⟨hpt0, hpf0⟩
        · exact absurd h1 hTt
        refine ⟨hbt.2.1, ?_, ?_⟩
        · exact (intToUsize_nonneg_le hpf0 hbt.2.2.2.2.2).2
        · exact (intToUsize_nonneg_le hpt0 hbt.2.2.2.1).2
  have hlines : linesOf (renderBDD d)
      = (("vars ").toList ++ natToChars d.variables.length)
        :: (("nodes ").toList ++ natToChars d.nodes.length)
        :: d.nodes.map (fun p => natToChars p.1 ++ ' ' :: renderNode p.2) := by
    rw [renderBDD_shape]
    apply linesOf_render
    · intro hm
      rcases List.mem_append.mp hm with h | h
      · exact absurd h (by decide)
      · exact nl_not_mem_natToChars _ h
    · intro hc
      rw [List.append_eq_nil] at hc
      exact absurd hc.1 (by decide)
    · intro hm
      rcases List.mem_append.mp hm with h | h
      · exact absurd h (by decide)
      · exact cr_not_mem_natToChars _ h
    · intro l hl
      rcases List.mem_cons.mp hl with h | h
      · rw [h]
        intro hm
        rcases List.mem_append.mp hm with h' | h'
        · exact absurd h' (by decide)
        · exact nl_not_mem_natToChars _ h'
      · rcases List.mem_map.mp h with ⟨p, hpm, rfl⟩
        intro hm
        rcases List.mem_append.mp hm with h' | h'
        · exact nl_not_mem_natToChars _ h'
        · rcases List.mem_cons.mp h' with h'' | h''
          · exact absurd h'' (by decide)
          · exact nl_not_mem_renderNode _ h''
    · intro l hl
      rcases List.mem_cons.mp hl with h | h
      · rw [h]
        intro hc
        rw [List.append_eq_nil] at hc
        exact absurd hc.1 (by decide)
      · rcases List.mem_map.mp h with ⟨p, hpm, rfl⟩
        intro hc
        rw [List.append_eq_nil] at hc
        exact absurd hc.2 (List.cons_ne_nil _ _)
    · intro l hl
      rcases List.mem_cons.mp hl with h | h
      · rw [h]
        intro hm
        rcases List.mem_append.mp hm with h' | h'
        · exact absurd h' (by decide)
        · exact cr_not_mem_natToChars _ h'
      · rcases List.mem_map.mp h with ⟨p, hpm, rfl⟩
        intro hm
        rcases List.mem_append.mp hm with h' | h'
        · exact cr_not_mem_natToChars _ h'
        · rcases List.mem_cons.mp h' with h'' | h''
          · exact absurd h'' (by decide)
          · exact cr_not_mem_renderNode _ h''
  have hsv : splitWs (("vars ").toList ++ natToChars d.variables.length)
      = [['v', 'a', 'r', 's'], natToChars d.variables.length] := by
    rw [show ("vars ").toList ++ natToChars d.variables.length
      = joinTok [['v', 'a', 'r', 's'], natToChars d.variables.length] from rfl]
    apply splitWs_joinTok
    · intro t ht
      simp only [List.mem_cons, List.not_mem_nil, or_false] at ht
      rcases ht with h | h
      · rw [h]; decide
      · rw [h]; exact natToChars_ne_nil _
    · intro t ht
      simp only [List.mem_cons, List.not_mem_nil, or_false] at ht
      rcases ht with h | h
      · rw [h]; decide
      · rw [h]; exact natToChars_ws_free _
  have hsn : splitWs (("nodes ").toList ++ natToChars d.nodes.length)
      = [['n', 'o', 'd', 'e', 's'], natToChars d.nodes.length] := by
    rw [show ("nodes ").toList ++ natToChars d.nodes.length
      = joinTok [['n', 'o', 'd', 'e', 's'], natToChars d.nodes.length] from rfl]
    apply splitWs_joinTok
    · intro t ht
      simp only [List.mem_cons, List.not_mem_nil, or_false] at ht
      rcases ht with h | h
      · rw [h]; decide
      · rw [h]; exact natToChars_ne_nil _
    · intro t ht
      simp only [List.mem_cons, List.not_mem_nil, or_false] at ht
      rcases ht with h | h
      · rw [h]; decide
      · rw [h]; exact natToChars_ws_free _
  have hv1 : (splitWs (("vars ").toList ++ natToChars d.variables.length))[1]?
      = some (natToChars d.variables.length) := by
    rw [hsv]
    simp
  have hn1 : (splitWs (("nodes ").toList ++ natToChars d.nodes.length))[1]?
      = some (natToChars d.nodes.length) := by
    rw [hsn]
    simp
  have hv2 : parseUsize (natToChars d.variables.length) = some d.variables.length :=
    parseUsize_natToChars hA
  have hn2 : parseUsize (natToChars d.nodes.length) = some d.nodes.length :=
    parseUsize_natToChars hB
  have hdec2 : decodeAll (d.nodes.map (fun p => natToChars p.1 ++ ' ' :: renderNode p.2))
      = Except.ok (d.nodes.map tupleOfEntry) := decodeAll_map_render d.nodes hsafe
  have hts' : d.nodes.map tupleOfEntry = ts.map (fun t => tupleOfEntry (entryOf t)) := by
    rw [hnodes', List.map_map]
    rfl
  have hstv : ((d.nodes.map tupleOfEntry).foldl stepTuple ⟨[], [], none⟩).variables
      = d.variables := by
    rw [foldl_stepTuple_variables, hts', varsFold_tupRound ts hpt]
    exact hvars'.symm
  have hstn : ((d.nodes.map tupleOfEntry).foldl stepTuple ⟨[], [], none⟩).nodes
      = d.nodes := by
    rw [foldl_stepTuple_nodes]
    have hids2 : (idsOfTuples (d.nodes.map tupleOfEntry)).Nodup := by
      have he : idsOfTuples (d.nodes.map tupleOfEntry) = idsOfTuples ts := by
        rw [hts']
        unfold idsOfTuples
        rw [List.map_map]
        exact List.map_congr_left (fun t ht => num_tupRound (hpt t ht))
      rw [he]
      exact hidts
    rw [nodesFold_eq_append _ _ hids2 (by intro t _; simp [alKeys])]
    show ([] : AssocMap BinaryNode) ++ (d.nodes.map tupleOfEntry).map entryOf = d.nodes
    rw [List.nil_append, hts', List.map_map]
    rw [show ts.map (entryOf ∘ fun t => tupleOfEntry (entryOf t)) = ts.map entryOf
      from List.map_congr_left (fun t ht => entryOf_tupRound (hpt t ht))]
    exact hnodes'.symm
  have hste : ((d.nodes.map tupleOfEntry).foldl stepTuple ⟨[], [], none⟩).entry_node
      = some d.entry_node := by
    rw [foldl_stepTuple_entry, hts', entryFold_tupRound ts hpt]
    exact hent'
  have hcv : d.variables.length
      = ((d.nodes.map tupleOfEntry).foldl stepTuple ⟨[], [], none⟩).variables.length := by
    rw [hstv]
  have hcn : d.nodes.length
      = ((d.nodes.map tupleOfEntry).foldl stepTuple ⟨[], [], none⟩).nodes.length := by
    rw [hstn]
  have hT2 : hasTerminal true
      ((d.nodes.map tupleOfEntry).foldl stepTuple ⟨[], [], none⟩).nodes = true := by
    rw [hstn]
    exact hT
  have hF2 : hasTerminal false
      ((d.nodes.map tupleOfEntry).foldl stepTuple ⟨[], [], none⟩).nodes = true := by
    rw [hstn]
    exact hF
  have hbuild := fromStr_build hlines hv1 hn1 hv2 hn2 hdec2 hcv hcn hT2 hF2 hste
  rw [hbuild, hstv, hstn]

def c1wSrc : List Char := ("vars 1\nnodes 3\n0 2 1 0\n1 -1 -1 0\n2 -1 -1 1").toList

/-- The diagram the C1 witness input parses to. -/
def c1wD : BinaryDecisionDiagram :=
  ⟨[(0, none)],
   [(0, BinaryNode.Decision ⟨0, (1, 2)⟩),
    (1, BinaryNode.Terminal false),
    (2, BinaryNode.Terminal true)], 0⟩

theorem claim_C1_roundtrip_witness :
    fromStr c1wSrc = Except.ok c1wD ∧ (nodeLineIds c1wSrc).Nodup ∧
      noMixedBranchLines c1wSrc = true ∧ fromStr (renderBDD c1wD) = Except.ok c1wD := by
  have hp : fromStr c1wSrc = Except.ok c1wD := rfl
  have hi : (nodeLineIds c1wSrc).Nodup := by decide
  have hm : noMixedBranchLines c1wSrc = true := by decide
  exact ⟨hp, hi, hm, claim_C1_roundtrip hp hi hm⟩
